import Mathlib

/-!
# Verification of the FRI prover/verifier (`src/shared_math/fri.rs`)

This file gives a shallow embedding of the FRI low-degree-test implementation
and settles the frozen claims about it.

Modelling conventions:

* The base field `B` of the Rust code is an arbitrary computable field `K`;
  the extension field `X` is an arbitrary computable field `F`; the embedding
  `B → X` (`lift`) is an arbitrary ring homomorphism `K →+* F`.
* Machine integers (`usize`, `u8`, `u32`, `u128`) are modelled as `Nat`.
  The quantities involved (domain lengths, round counts, query counts,
  counters) are far below every wrap-around boundary for all valid
  parameter sets, and the theorems carry the hypotheses that keep the
  modelled arithmetic aligned with the machine arithmetic; divergences are
  noted at the definitions concerned.
* External collaborators of the FRI core (hash, Merkle tree, proof stream,
  NTT, `Polynomial` utilities) are not part of the repository sources; they
  are modelled from the spec, each with a doc comment naming what is missing.
* Rust panics (`assert!`) are modelled as an explicit abort value, distinct
  from the `Result::Err` channel.

Polynomials are represented by their coefficient lists (index = exponent),
mirroring the external `Polynomial { coefficients: Vec<_> }` type.
-/

set_option linter.unusedSectionVars false
set_option linter.unusedVariables false

section ListPoly

variable {F : Type} [Field F] [DecidableEq F]

/-- Modelled from the spec: `Polynomial::evaluate` — Horner evaluation of a
coefficient list (coefficient of `x^i` at position `i`). -/
def polyEval (p : List F) (x : F) : F :=
  p.foldr (fun a acc => a + x * acc) 0

/-- Drop trailing zero coefficients (the canonical representative used when
comparing polynomials, cf. the spec wording: equality as trimmed polynomials). -/
def trimPoly : List F → List F :=
  List.foldr (fun a acc => if acc = [] ∧ a = 0 then [] else a :: acc) []

/-- Modelled from the spec: `Polynomial::degree` — degree of the trimmed
coefficient list, `-1` for the zero polynomial (as in the Rust code, which
returns `-1isize`). -/
def polyDegree (p : List F) : Int :=
  (trimPoly p).length - 1

/-- Coefficient-wise sum of two polynomials. -/
def addPoly : List F → List F → List F
  | [], q => q
  | p, [] => p
  | a :: p, b :: q => (a + b) :: addPoly p q

/-- Scalar multiple of a polynomial. -/
def smulPoly (c : F) (p : List F) : List F :=
  p.map (c * ·)

/-- Modelled from the spec: `Polynomial::scale` — `[a_0, a_1, …]` becomes
`[a_k · g^k]_k`. -/
def scalePoly (g : F) (p : List F) : List F :=
  (List.range p.length).zipWith (fun k a => a * g ^ k) p

/-- Zero-pad a coefficient list to length `n`. -/
def padPoly (n : Nat) (p : List F) : List F :=
  p ++ List.replicate (n - p.length) 0

/-- Coefficients at even positions. -/
def evenCoeffs : List F → List F
  | [] => []
  | [a] => [a]
  | a :: _ :: t => a :: evenCoeffs t

/-- Coefficients at odd positions. -/
def oddCoeffs : List F → List F
  | [] => []
  | [_] => []
  | _ :: b :: t => b :: oddCoeffs t

theorem polyEval_nil (x : F) : polyEval ([] : List F) x = 0 := rfl

theorem polyEval_cons (a : F) (p : List F) (x : F) :
    polyEval (a :: p) x = a + x * polyEval p x := rfl

theorem polyEval_eq_sum (p : List F) (x : F) :
    polyEval p x = ∑ j ∈ Finset.range p.length, p.getD j 0 * x ^ j := by
  induction p generalizing x with
  | nil => simp [polyEval_nil]
  | cons a t ih =>
    rw [polyEval_cons, List.length_cons, Finset.sum_range_succ']
    simp only [List.getD_cons_succ, List.getD_cons_zero, pow_zero, mul_one, pow_succ]
    rw [ih x, Finset.mul_sum, add_comm]
    congr 1
    refine Finset.sum_congr rfl fun j _ => ?_
    ring

theorem addPoly_eval (p q : List F) (x : F) :
    polyEval (addPoly p q) x = polyEval p x + polyEval q x := by
  induction p generalizing q with
  | nil => simp [addPoly, polyEval_nil]
  | cons a t ih =>
    cases q with
    | nil => simp [addPoly, polyEval_nil]
    | cons b u =>
      simp only [addPoly, polyEval_cons, ih]
      ring

theorem smulPoly_eval (c : F) (p : List F) (x : F) :
    polyEval (smulPoly c p) x = c * polyEval p x := by
  induction p with
  | nil => simp [smulPoly, polyEval_nil]
  | cons a t ih =>
    simp only [smulPoly, List.map_cons, polyEval_cons] at *
    rw [ih]
    ring

theorem addPoly_length (p q : List F) :
    (addPoly p q).length = max p.length q.length := by
  induction p generalizing q with
  | nil => simp [addPoly]
  | cons a t ih =>
    cases q with
    | nil => simp [addPoly]
    | cons b u => simp [addPoly, ih, Nat.succ_max_succ]

theorem smulPoly_length (c : F) (p : List F) :
    (smulPoly c p).length = p.length := by
  simp [smulPoly]

theorem evenCoeffs_length (p : List F) :
    (evenCoeffs p).length = (p.length + 1) / 2 := by
  induction p using evenCoeffs.induct with
  | case1 => simp [evenCoeffs]
  | case2 a => simp [evenCoeffs]
  | case3 a b t ih =>
    simp only [evenCoeffs, List.length_cons, ih]
    omega

theorem oddCoeffs_length (p : List F) :
    (oddCoeffs p).length = p.length / 2 := by
  induction p using oddCoeffs.induct with
  | case1 => simp [oddCoeffs]
  | case2 a => simp [oddCoeffs]
  | case3 a b t ih =>
    simp only [oddCoeffs, List.length_cons, ih]
    omega

theorem even_odd_eval (p : List F) (x : F) :
    polyEval p x
      = polyEval (evenCoeffs p) (x * x) + x * polyEval (oddCoeffs p) (x * x) := by
  induction p using evenCoeffs.induct generalizing x with
  | case1 => simp [evenCoeffs, oddCoeffs, polyEval_nil]
  | case2 a => simp [evenCoeffs, oddCoeffs, polyEval_nil, polyEval_cons]
  | case3 a b t ih =>
    simp only [evenCoeffs, oddCoeffs, polyEval_cons, ih]
    ring

theorem trimPoly_cons (a : F) (l : List F) :
    trimPoly (a :: l) = if trimPoly l = [] ∧ a = 0 then [] else a :: trimPoly l := rfl

theorem trimPoly_append_replicate_zero (p : List F) (m : Nat) :
    trimPoly (p ++ List.replicate m 0) = trimPoly p := by
  induction p with
  | nil =>
    induction m with
    | zero => rfl
    | succ k ih =>
      rw [List.nil_append] at *
      rw [List.replicate_succ, trimPoly_cons, ih]
      simp [trimPoly]
  | cons a t ih =>
    rw [List.cons_append, trimPoly_cons, trimPoly_cons, ih]

theorem trimPoly_length_le (p : List F) : (trimPoly p).length ≤ p.length := by
  induction p with
  | nil => simp [trimPoly]
  | cons a t ih =>
    simp only [trimPoly, List.foldr_cons] at *
    by_cases h : (List.foldr (fun a acc => if acc = [] ∧ a = 0 then [] else a :: acc) [] t) = [] ∧ a = 0
    · simp [h]
    · simp only [if_neg h, List.length_cons]
      omega

theorem list_ext_getD {α : Type} (d : α) {l₁ l₂ : List α} (hlen : l₁.length = l₂.length)
    (h : ∀ i, i < l₁.length → l₁.getD i d = l₂.getD i d) : l₁ = l₂ := by
  apply List.ext_getElem hlen
  intro i h1 h2
  have hi := h i h1
  rwa [List.getD_eq_getElem _ _ h1, List.getD_eq_getElem _ _ h2] at hi

theorem getD_map_range {α : Type} (f : Nat → α) (d : α) {n i : Nat} (h : i < n) :
    ((List.range n).map f).getD i d = f i := by
  rw [List.getD_eq_getElem _ _ (by simpa using h)]
  simp

theorem scalePoly_length (g : F) (p : List F) : (scalePoly g p).length = p.length := by
  simp [scalePoly]

theorem scalePoly_getD (g : F) (p : List F) {k : Nat} (hk : k < p.length) :
    (scalePoly g p).getD k 0 = p.getD k 0 * g ^ k := by
  rw [List.getD_eq_getElem _ _ (by rw [scalePoly_length]; exact hk),
    List.getD_eq_getElem _ _ hk]
  simp [scalePoly]

theorem scalePoly_append_replicate_zero (g : F) (p : List F) (m : Nat) :
    scalePoly g (p ++ List.replicate m 0) = scalePoly g p ++ List.replicate m 0 := by
  apply list_ext_getD (0 : F)
  · simp [scalePoly_length]
  · intro i hi
    rw [scalePoly_length, List.length_append, List.length_replicate] at hi
    by_cases h : i < p.length
    · rw [scalePoly_getD _ _ (by simp; omega), List.getD_append _ _ _ _ h,
        List.getD_append _ _ _ _ (by rwa [scalePoly_length]),
        scalePoly_getD _ _ h]
    · push_neg at h
      rw [scalePoly_getD _ _ (by simp; omega),
        List.getD_append_right _ _ _ _ h,
        List.getD_append_right _ _ _ _ (by rwa [scalePoly_length]),
        scalePoly_length]
      rcases Nat.lt_or_ge (i - p.length) m with hm | hm
      · rw [List.getD_eq_getElem _ _ (by simpa using hm)]
        simp
      · rw [List.getD_eq_default _ _ (by simpa using hm)]
        simp

theorem scalePoly_scalePoly_inv (g : F) (hg : g ≠ 0) (p : List F) :
    scalePoly g⁻¹ (scalePoly g p) = p := by
  apply list_ext_getD (0 : F)
  · simp [scalePoly_length]
  · intro i hi
    rw [scalePoly_length, scalePoly_length] at hi
    rw [scalePoly_getD _ _ (by rwa [scalePoly_length]), scalePoly_getD _ _ hi]
    rw [mul_assoc, ← mul_pow, mul_inv_cancel₀ hg, one_pow, mul_one]

theorem padPoly_of_length_eq {n : Nat} {p : List F} (h : p.length = n) :
    padPoly n p = p := by
  simp [padPoly, h]

theorem padPoly_length {n : Nat} {p : List F} (h : p.length ≤ n) :
    (padPoly n p).length = n := by
  simp [padPoly]
  omega

theorem polyEval_replicate_zero (m : Nat) (x : F) :
    polyEval (List.replicate m (0 : F)) x = 0 := by
  induction m with
  | zero => rfl
  | succ k ih => rw [List.replicate_succ, polyEval_cons, ih, mul_zero, add_zero]

theorem polyEval_append_replicate_zero (p : List F) (m : Nat) (x : F) :
    polyEval (p ++ List.replicate m 0) x = polyEval p x := by
  induction p with
  | nil => rw [List.nil_append, polyEval_nil, polyEval_replicate_zero]
  | cons a t ih => rw [List.cons_append, polyEval_cons, polyEval_cons, ih]

theorem polyEval_padPoly (n : Nat) (p : List F) (x : F) :
    polyEval (padPoly n p) x = polyEval p x :=
  polyEval_append_replicate_zero p _ x

end ListPoly

section DFT

variable {F : Type} [Field F] [DecidableEq F]

/-- `∑_{i<n} ζ^i = 0` when `ζ` is a nontrivial `n`-th root of unity. -/
theorem geom_sum_eq_zero_of_pow_eq_one {ζ : F} {n : Nat} (h1 : ζ ^ n = 1) (hne : ζ ≠ 1) :
    ∑ i ∈ Finset.range n, ζ ^ i = 0 := by
  have h := geom_sum_mul ζ n
  rw [h1, sub_self] at h
  rcases mul_eq_zero.mp h with h' | h'
  · exact h'
  · exact absurd (sub_eq_zero.mp h') hne

/-- Orthogonality of characters: `∑_{i<n} (ω^j · ω^{-k})^i` is `n` when `j = k`
and `0` otherwise, for `j, k < n` and `ω` a primitive `n`-th root of unity. -/
theorem dft_orth {ω : F} {n : Nat} (hω : IsPrimitiveRoot ω n) {j k : Nat}
    (hj : j < n) (hk : k < n) :
    ∑ i ∈ Finset.range n, (ω ^ j * (ω⁻¹) ^ k) ^ i = if j = k then (n : F) else 0 := by
  have hω0 : ω ≠ 0 := hω.ne_zero (by omega)
  by_cases hjk : j = k
  · subst hjk
    rw [if_pos rfl, inv_pow, mul_inv_cancel₀ (pow_ne_zero _ hω0)]
    simp
  · rw [if_neg hjk]
    apply geom_sum_eq_zero_of_pow_eq_one
    · rw [mul_pow, ← pow_mul, ← pow_mul, mul_comm j n, mul_comm k n, pow_mul, pow_mul,
        hω.pow_eq_one, inv_pow, hω.pow_eq_one, inv_one, one_pow, one_pow, one_mul]
    · intro hone
      apply hjk
      apply hω.pow_inj hj hk
      rw [inv_pow] at hone
      field_simp at hone
      exact hone

/-- Modelled from the spec: the external `ntt` routine — evaluates a
length-`n` coefficient vector at the powers of `ω` (`result[i] = Σ_j v_j ω^{ij}`).
The fast in-place NTT of the external crate computes exactly this map. -/
def nttL (ω : F) (v : List F) : List F :=
  (List.range v.length).map
    (fun i => ∑ j ∈ Finset.range v.length, v.getD j 0 * ω ^ (i * j))

/-- Modelled from the spec: the external `intt` routine — inverse NTT,
`result[k] = n⁻¹ Σ_i v_i ω^{-ik}`. -/
def inttL (ω : F) (v : List F) : List F :=
  (List.range v.length).map
    (fun k => (v.length : F)⁻¹ * ∑ i ∈ Finset.range v.length, v.getD i 0 * (ω⁻¹) ^ (i * k))

theorem nttL_length (ω : F) (v : List F) : (nttL ω v).length = v.length := by
  simp [nttL]

theorem inttL_length (ω : F) (v : List F) : (inttL ω v).length = v.length := by
  simp [inttL]

theorem nttL_getD (ω : F) (v : List F) {i : Nat} (hi : i < v.length) :
    (nttL ω v).getD i 0 = ∑ j ∈ Finset.range v.length, v.getD j 0 * ω ^ (i * j) := by
  unfold nttL
  rw [getD_map_range _ _ hi]

theorem inttL_getD (ω : F) (v : List F) {k : Nat} (hk : k < v.length) :
    (inttL ω v).getD k 0
      = (v.length : F)⁻¹ * ∑ i ∈ Finset.range v.length, v.getD i 0 * (ω⁻¹) ^ (i * k) := by
  unfold inttL
  rw [getD_map_range _ _ hk]

/-- The NTT evaluates the polynomial at `ω^i`. -/
theorem nttL_eval (ω : F) (v : List F) {i : Nat} (hi : i < v.length) :
    (nttL ω v).getD i 0 = polyEval v (ω ^ i) := by
  rw [nttL_getD ω v hi, polyEval_eq_sum]
  refine Finset.sum_congr rfl fun j _ => ?_
  rw [← pow_mul]

/-- DFT inversion: `intt ω (ntt ω v) = v` for `ω` a primitive root of order
`v.length` whose order does not vanish in `F`. -/
theorem inttL_nttL {ω : F} {n : Nat} (hω : IsPrimitiveRoot ω n) (hn : (n : F) ≠ 0)
    {v : List F} (hv : v.length = n) :
    inttL ω (nttL ω v) = v := by
  apply list_ext_getD (0 : F)
  · rw [inttL_length, nttL_length]
  · intro k hk
    rw [inttL_length, nttL_length, hv] at hk
    rw [inttL_getD _ _ (by rw [nttL_length]; omega), nttL_length, hv]
    have hsum : ∀ i ∈ Finset.range n,
        (nttL ω v).getD i 0 * (ω⁻¹) ^ (i * k)
          = ∑ j ∈ Finset.range n, v.getD j 0 * (ω ^ j * (ω⁻¹) ^ k) ^ i := by
      intro i hi
      rw [Finset.mem_range] at hi
      rw [nttL_getD _ _ (by omega), hv, Finset.sum_mul]
      refine Finset.sum_congr rfl fun j _ => ?_
      rw [mul_pow, ← pow_mul, ← pow_mul, mul_assoc, mul_comm j i, mul_comm k i]
    rw [Finset.sum_congr rfl hsum, Finset.sum_comm]
    have hinner : ∀ j ∈ Finset.range n,
        (∑ i ∈ Finset.range n, v.getD j 0 * (ω ^ j * (ω⁻¹) ^ k) ^ i)
          = if j = k then v.getD j 0 * n else 0 := by
      intro j hj
      rw [Finset.mem_range] at hj
      rw [← Finset.mul_sum, dft_orth hω hj hk, mul_ite, mul_zero]
    rw [Finset.sum_congr rfl hinner, Finset.sum_ite_eq' (Finset.range n) k
      (fun j => v.getD j 0 * (n : F))]
    rw [if_pos (Finset.mem_range.mpr hk), mul_comm (v.getD k 0), ← mul_assoc,
      inv_mul_cancel₀ hn, one_mul]

/-- DFT inversion, other direction: `ntt ω (intt ω v) = v`. -/
theorem nttL_inttL {ω : F} {n : Nat} (hω : IsPrimitiveRoot ω n) (hn : (n : F) ≠ 0)
    {v : List F} (hv : v.length = n) :
    nttL ω (inttL ω v) = v := by
  apply list_ext_getD (0 : F)
  · rw [nttL_length, inttL_length]
  · intro j hj
    rw [nttL_length, inttL_length, hv] at hj
    rw [nttL_getD _ _ (by rw [inttL_length]; omega), inttL_length, hv]
    have hsum : ∀ k ∈ Finset.range n,
        (inttL ω v).getD k 0 * ω ^ (j * k)
          = ∑ i ∈ Finset.range n, (n : F)⁻¹ * (v.getD i 0 * (ω ^ j * (ω⁻¹) ^ i) ^ k) := by
      intro k hk
      rw [Finset.mem_range] at hk
      rw [inttL_getD _ _ (by omega), hv, Finset.mul_sum, Finset.sum_mul]
      refine Finset.sum_congr rfl fun i _ => ?_
      rw [mul_pow, ← pow_mul, ← pow_mul, mul_comm i k]
      ring
    rw [Finset.sum_congr rfl hsum, Finset.sum_comm]
    have hinner : ∀ i ∈ Finset.range n,
        (∑ k ∈ Finset.range n, (n : F)⁻¹ * (v.getD i 0 * (ω ^ j * (ω⁻¹) ^ i) ^ k))
          = if j = i then (n : F)⁻¹ * v.getD i 0 * n else 0 := by
      intro i hi
      rw [Finset.mem_range] at hi
      rw [← Finset.mul_sum, ← Finset.mul_sum, dft_orth hω hj hi, mul_ite, mul_ite,
        mul_zero, mul_zero, ← mul_assoc]
    rw [Finset.sum_congr rfl hinner, Finset.sum_ite_eq (Finset.range n) j
      (fun i => (n : F)⁻¹ * v.getD i 0 * (n : F))]
    rw [if_pos (Finset.mem_range.mpr hj), mul_comm ((n : F)⁻¹) (v.getD j 0),
      mul_assoc, inv_mul_cancel₀ hn, mul_one]

end DFT

section Domain

variable {K F : Type} [Field K] [DecidableEq K] [Field F] [DecidableEq F]

/-- `Vec::resize(n, 0)`: truncate to `n` elements or zero-pad up to `n`. -/
def resizeList (n : Nat) (l : List F) : List F :=
  l.take n ++ List.replicate (n - l.length) 0

theorem resizeList_of_length_le {n : Nat} {l : List F} (h : l.length ≤ n) :
    resizeList n l = padPoly n l := by
  rw [resizeList, padPoly, List.take_of_length_le h]

/-- `FriDomain` (fri.rs lines 39-44): a multiplicative coset `offset·⟨omega⟩`
of size `length` in the base field. -/
structure FriDomain (K : Type) where
  offset : K
  omega : K
  length : Nat

/-- `FriDomain::b_domain_value`: `omega.mod_pow_u32(index) * offset`. -/
def FriDomain.b_domain_value (d : FriDomain K) (i : Nat) : K :=
  d.omega ^ i * d.offset

/-- `FriDomain::b_evaluate` (fri.rs lines 65-77): scale the coefficients by the
offset, resize to the domain length, and run the NTT (`ntt` itself is external;
modelled from the spec as the evaluation map `result[i] = Σ_j v_j ω^{ij}`). -/
def FriDomain.b_evaluate (d : FriDomain K) (p : List K) : List K :=
  nttL d.omega (resizeList d.length (scalePoly d.offset p))

/-- `FriDomain::b_interpolate`. Modelled from the spec: the external
`Polynomial::fast_coset_interpolate` returns the unique polynomial of degree
`< N` interpolating the values on the coset, i.e. the subgroup INTT followed by
unscaling by the offset. -/
def FriDomain.b_interpolate (d : FriDomain K) (v : List K) : List K :=
  scalePoly d.offset⁻¹ (inttL d.omega v)

/-- `FriDomain::x_evaluate`. Modelled from the spec: the external
`Polynomial::fast_coset_evaluate` over the extension field — scale by the
(lifted) offset, zero-pad to the domain length, NTT at the (lifted) generator. -/
def FriDomain.x_evaluate (lift : K →+* F) (d : FriDomain K) (p : List F) : List F :=
  nttL (lift d.omega) (resizeList d.length (scalePoly (lift d.offset) p))

/-- `FriDomain::x_interpolate`. Modelled from the spec, as for `b_interpolate`. -/
def FriDomain.x_interpolate (lift : K →+* F) (d : FriDomain K) (v : List F) : List F :=
  scalePoly (lift d.offset)⁻¹ (inttL (lift d.omega) v)

theorem scalePoly_eval (g : F) (p : List F) (x : F) :
    polyEval (scalePoly g p) x = polyEval p (g * x) := by
  rw [polyEval_eq_sum, polyEval_eq_sum, scalePoly_length]
  refine Finset.sum_congr rfl fun j hj => ?_
  rw [Finset.mem_range] at hj
  rw [scalePoly_getD _ _ hj, mul_pow, mul_assoc, mul_comm (g ^ j) (x ^ j), ← mul_assoc]

/-- Generic coset round-trip, direction 1: interpolating the evaluations gives
back the polynomial (as trimmed coefficient lists). -/
theorem coset_interp_eval {ω g : F} {n : Nat} (hω : IsPrimitiveRoot ω n)
    (hn : (n : F) ≠ 0) (hg : g ≠ 0) (p : List F) (hp : p.length ≤ n) :
    trimPoly (scalePoly g⁻¹ (inttL ω (nttL ω (resizeList n (scalePoly g p)))))
      = trimPoly p := by
  rw [resizeList_of_length_le (by rwa [scalePoly_length]), padPoly,
    inttL_nttL hω hn (by simp [scalePoly_length]; omega),
    scalePoly_append_replicate_zero, scalePoly_scalePoly_inv g hg,
    trimPoly_append_replicate_zero]

/-- Generic coset round-trip, direction 2: evaluating the interpolant gives
back the value vector. -/
theorem coset_eval_interp {ω g : F} {n : Nat} (hω : IsPrimitiveRoot ω n)
    (hn : (n : F) ≠ 0) (hg : g ≠ 0) (v : List F) (hv : v.length = n) :
    nttL ω (resizeList n (scalePoly g (scalePoly g⁻¹ (inttL ω v)))) = v := by
  have hginv : g⁻¹ ≠ 0 := inv_ne_zero hg
  have : scalePoly g (scalePoly g⁻¹ (inttL ω v)) = inttL ω v := by
    have := scalePoly_scalePoly_inv g⁻¹ hginv (inttL ω v)
    rwa [inv_inv] at this
  rw [this, resizeList_of_length_le (by rw [inttL_length, hv]),
    padPoly_of_length_eq (by rw [inttL_length, hv]), nttL_inttL hω hn hv]

/-- Pointwise form of coset evaluation: entry `i` is the polynomial evaluated
at the `i`-th domain point. -/
theorem coset_evaluate_getD {ω g : F} {n : Nat} (p : List F) (hp : p.length ≤ n)
    {i : Nat} (hi : i < n) :
    (nttL ω (resizeList n (scalePoly g p))).getD i 0 = polyEval p (g * ω ^ i) := by
  have hlen : (resizeList n (scalePoly g p)).length = n := by
    rw [resizeList_of_length_le (by rwa [scalePoly_length]),
      padPoly_length (by rwa [scalePoly_length])]
  rw [nttL_eval _ _ (by rwa [hlen]),
    resizeList_of_length_le (by rwa [scalePoly_length]),
    polyEval_padPoly, scalePoly_eval]

end Domain

section Protocol

/-- A transcript message. The three message shapes the FRI core ever enqueues:
a Merkle root, the length-prepended last codeword, and a length-prepended list
of `(authentication path, value)` pairs. -/
inductive Msg (F D : Type) where
  | root : D → Msg F D
  | codeword : List F → Msg F D
  | bundle : List ((List D × Nat) × F) → Msg F D
  deriving DecidableEq

/-- Modelled from the spec: the external `ProofStream`. An append-only message
log with a read index; `past` holds the already-dequeued prefix and `future`
the pending suffix (so the underlying log is `past ++ future`).
`prover_fiat_shamir` hashes the whole log, `verifier_fiat_shamir` hashes the
prefix read so far. -/
structure ProofStream (F D : Type) where
  past : List (Msg F D)
  future : List (Msg F D)
  deriving DecidableEq

/-- Modelled from the spec: the external `AlgebraicHasher` interface plus the
Merkle-root map, gathered into one oracle record.
`hashElem` is `H::hash_slice(x.to_sequence())` for a codeword element;
`hashPair` is `H::hash_slice(seed.to_sequence() ++ counter.to_sequence())`;
`sampleIndexNPT` is `H::sample_index_not_power_of_two` (spec: a uniform index
in `[0, n)`); `sampleIndexBit` is `H::sample_index(h, 2) == 0`;
`sample` is `XFieldElement::sample`; `mtRoot` is
`MerkleTree::from_digests(leaves).get_root()`; `fs` is the Fiat-Shamir digest
of a message sequence. -/
structure Oracle (F D : Type) where
  hashElem : F → D
  hashPair : D → Nat → D
  sampleIndexNPT : D → Nat → Nat
  sampleIndexBit : D → Bool
  sample : D → F
  mtRoot : List D → D
  fs : List (Msg F D) → D

variable {K F D : Type} [Field K] [DecidableEq K] [Field F] [DecidableEq F] [DecidableEq D]

def ProofStream.enqueue (s : ProofStream F D) (m : Msg F D) : ProofStream F D :=
  ⟨s.past, s.future ++ [m]⟩

def proverFS (O : Oracle F D) (s : ProofStream F D) : D :=
  O.fs (s.past ++ s.future)

def verifierFS (O : Oracle F D) (s : ProofStream F D) : D :=
  O.fs s.past

/-- `ValidationError` (fri.rs lines 29-37), together with two extra outcomes of
the shallow embedding: `streamError` models any deserialization / premature-end
error surfaced by the external proof stream (a `Box<dyn Error>` distinct from
the `ValidationError` variants), and `aborted` models a Rust `assert!` panic.
The variant name `nonPostiveRoundCount` keeps the source's spelling. -/
inductive VError where
  | badMerkleProof
  | badSizedProof
  | nonPostiveRoundCount
  | notColinear : Nat → VError
  | lastIterationTooHighDegree
  | badMerkleRootForLastCodeword
  | streamError
  | aborted
  deriving DecidableEq

def ProofStream.dequeueRoot (s : ProofStream F D) : Except VError (D × ProofStream F D) :=
  match s.future with
  | Msg.root d :: rest => .ok (d, ⟨s.past ++ [Msg.root d], rest⟩)
  | _ => .error .streamError

def ProofStream.dequeueCodeword (s : ProofStream F D) :
    Except VError (List F × ProofStream F D) :=
  match s.future with
  | Msg.codeword c :: rest => .ok (c, ⟨s.past ++ [Msg.codeword c], rest⟩)
  | _ => .error .streamError

def ProofStream.dequeueBundle (s : ProofStream F D) :
    Except VError (List ((List D × Nat) × F) × ProofStream F D) :=
  match s.future with
  | Msg.bundle b :: rest => .ok (b, ⟨s.past ++ [Msg.bundle b], rest⟩)
  | _ => .error .streamError

/-- Modelled from the spec: `MerkleTree::verify_authentication_structure`.
A tree is represented by its leaf-digest list; the (deduplicated) opening for
an index is modelled as the pair (leaf list, index). Verification checks that
each opening's leaf list hashes to `root`, that its index matches the queried
index, and that its leaf at that index is the claimed digest. -/
def verifyAuthStructure (O : Oracle F D) (root : D) (indices : List Nat)
    (pairs : List ((List D × Nat) × D)) : Bool :=
  decide (pairs.length = indices.length) &&
  (indices.zip pairs).all fun ip =>
    decide (O.mtRoot ip.2.1.1 = root) && decide (ip.2.1.2 = ip.1) &&
    decide (ip.2.1.1.get? ip.1 = some ip.2.2)

/-- Modelled from the spec: `other::log_2_ceil` — `⌈log₂ n⌉` (0 for `n ≤ 1`),
written with explicit fuel so that it is structurally recursive. -/
def log2CeilFuel : Nat → Nat → Nat
  | 0, _ => 0
  | fuel + 1, n => if n ≤ 1 then 0 else log2CeilFuel fuel ((n + 1) / 2) + 1

def log2Ceil (n : Nat) : Nat :=
  log2CeilFuel n n

/-- `Fri` (fri.rs lines 84-90); the phantom hasher parameter is replaced by
passing an `Oracle` to the operations. -/
structure Fri (K : Type) where
  expansion_factor : Nat
  colinearity_checks_count : Nat
  domain : FriDomain K

/-- `Fri::num_rounds` (fri.rs lines 484-498). Modelling notes: the Rust code
computes `ceil(q / ρ)` through `f64` division — exact whenever `ρ` is a power
of two (the only valid expansion factors) and `q < 2^53` — modelled as the
integer ceiling division `(q + ρ - 1) / ρ`. The `u8` subtraction
`rounds_count -= num_missed_rounds` is modelled as truncated `Nat`
subtraction; the two agree whenever `num_missed_rounds ≤ rounds_count`, which
holds whenever `q` does not exceed the last codeword length (the theorems
below carry that hypothesis). -/
def Fri.num_rounds (fri : Fri K) : Nat × Nat :=
  let max_degree := fri.domain.length / fri.expansion_factor - 1
  let rounds_count := log2Ceil (max_degree + 1)
  if fri.expansion_factor < fri.colinearity_checks_count then
    let num_missed_rounds :=
      log2Ceil ((fri.colinearity_checks_count + fri.expansion_factor - 1)
        / fri.expansion_factor)
    (rounds_count - num_missed_rounds, 2 ^ num_missed_rounds - 1)
  else
    (rounds_count, 0)

/-- Phase 1 of `Fri::sample_indices` (fri.rs lines 291-302): draw `count`
distinct last-layer indices from the shrinking `pool`, hashing
`seed ‖ counter` each draw. Returns the drawn indices and the final counter. -/
def sampleLastIndices (O : Oracle F D) (seed : D) :
    Nat → List Nat → Nat → List Nat × Nat
  | 0, _, counter => ([], counter)
  | count + 1, pool, counter =>
    let h := O.hashPair seed counter
    let index := O.sampleIndexNPT h pool.length
    let rest := sampleLastIndices O seed count (pool.eraseIdx index) (counter + 1)
    (pool.getD index 0 :: rest.1, rest.2)

/-- One lifting round of `Fri::sample_indices` (fri.rs lines 309-323): for each
index draw one bit and add `codeword_length / 2` if it is set. -/
def liftRoundIndices (O : Oracle F D) (seed : D) (halfLen : Nat) :
    List Nat → Nat → List Nat × Nat
  | [], counter => ([], counter)
  | i :: rest, counter =>
    let h := O.hashPair seed counter
    let reduce_modulo := O.sampleIndexBit h
    let new_index := if reduce_modulo then i + halfLen else i
    let r := liftRoundIndices O seed halfLen rest (counter + 1)
    (new_index :: r.1, r.2)

/-- The loop `for i in 1..num_rounds` of `Fri::sample_indices` (fri.rs lines
306-326): `k` remaining lifting rounds, the current round's
`codeword_length / 2` being `halfLen` (it starts at the last codeword length
and doubles each round). -/
def liftAllIndices (O : Oracle F D) (seed : D) :
    Nat → Nat → List Nat → Nat → List Nat
  | 0, _, idxs, _ => idxs
  | k + 1, halfLen, idxs, counter =>
    let r := liftRoundIndices O seed halfLen idxs counter
    liftAllIndices O seed k (halfLen * 2) r.1 r.2

/-- `Fri::sample_indices` (fri.rs lines 278-329). The `assert!` that the
requested number of indices not exceed the last codeword length is modelled by
returning `none` (a panic). -/
def Fri.sample_indices (O : Oracle F D) (fri : Fri K) (seed : D) :
    Option (List Nat) :=
  let num_rounds := fri.num_rounds.1
  let last_codeword_length := fri.domain.length >>> num_rounds
  if fri.colinearity_checks_count ≤ last_codeword_length then
    let r := sampleLastIndices O seed fri.colinearity_checks_count
      (List.range last_codeword_length) 0
    some (liftAllIndices O seed (num_rounds - 1) last_codeword_length r.1 r.2)
  else
    none

/-- The folding step of `Fri::commit` (fri.rs lines 240-254): `x_offset[i] =
generator^i * offset`, batch-inverted (modelled pointwise — Montgomery's trick
computes the same values), and
`c'[i] = 2⁻¹ ((1 + α·x_i⁻¹) c[i] + (1 − α·x_i⁻¹) c[n/2 + i])`.
The base-field inverses are lifted into the extension field by the implicit
`B · X` multiplication of the source, here the explicit `lift`. -/
def foldCodeword (lift : K →+* F) (alpha : F) (generator offset : K)
    (cw : List F) : List F :=
  let n := cw.length
  let two_inv := (1 : F) / ((1 : F) + 1)
  (List.range (n / 2)).map fun i =>
    two_inv * ((1 + alpha * lift ((generator ^ i * offset)⁻¹)) * cw.getD i 0
      + (1 - alpha * lift ((generator ^ i * offset)⁻¹)) * cw.getD (n / 2 + i) 0)

/-- The round loop of `Fri::commit` (fri.rs lines 229-268). Returns the final
stream, the produced layers (codeword and leaf digests, newest excluded the
input layer), the final codeword, and — as a ghost output for the statements —
the list of sampled challenges `α_r`. -/
def commitRounds (O : Oracle F D) (lift : K →+* F) :
    Nat → K → K → List F → ProofStream F D →
    ProofStream F D × List (List F × List D) × List F × List F
  | 0, _, _, cw, s => (s, [], cw, [])
  | rounds + 1, generator, offset, cw, s =>
    let challenge := proverFS O s
    let alpha := O.sample challenge
    let next := foldCodeword lift alpha generator offset cw
    let digests := next.map O.hashElem
    let s1 := s.enqueue (Msg.root (O.mtRoot digests))
    let r := commitRounds O lift rounds (generator * generator) (offset * offset) next s1
    (r.1, (next, digests) :: r.2.1, r.2.2.1, alpha :: r.2.2.2)

/-- `Fri::commit` (fri.rs lines 206-275): hash and commit the input layer,
run the folding rounds, send the last codeword. Returns the stream, all layers
(layer 0 first), and the ghost challenge list. -/
def Fri.commit (O : Oracle F D) (lift : K →+* F) (fri : Fri K)
    (codeword : List F) (s : ProofStream F D) :
    ProofStream F D × List (List F × List D) × List F :=
  let digests := codeword.map O.hashElem
  let s1 := s.enqueue (Msg.root (O.mtRoot digests))
  let r := commitRounds O lift fri.num_rounds.1
    fri.domain.omega fri.domain.offset codeword s1
  let layers := (codeword, digests) :: r.2.1
  let s2 := r.1.enqueue (Msg.codeword r.2.2.1)
  (s2, layers, r.2.2.2)

/-- `Fri::enqueue_auth_pairs` (fri.rs lines 121-136): zip the (modelled) Merkle
openings with the codeword values at `indices` and enqueue them. -/
def authPairs (tree : List D) (indices : List Nat) (cw : List F) :
    List ((List D × Nat) × F) :=
  indices.map fun i => ((tree, i), cw.getD i 0)

def enqueueAuthPairs (indices : List Nat) (cw : List F) (tree : List D)
    (s : ProofStream F D) : ProofStream F D :=
  s.enqueue (Msg.bundle (authPairs tree indices cw))

/-- The query loop of `Fri::prove` (fri.rs lines 187-200): one b-index bundle
per round `r = 0 .. R-1`, against layer `r`. -/
def proveQueryRounds : List Nat → Nat → List (List F × List D) →
    ProofStream F D → ProofStream F D
  | _, _, [], s => s
  | bIndices, len, layer :: rest, s =>
    let b := bIndices.map fun x => (x + len / 2) % len
    let s1 := enqueueAuthPairs b layer.1 layer.2 s
    proveQueryRounds b (len / 2) rest s1

/-- `Fri::prove` (fri.rs lines 163-203). The leading
`assert_eq!(domain.length, codeword.len())` panic — and the panic inside
`sample_indices` — are modelled by the `.error` channel, which carries the
stream as it stands at the abort (the `Result::Err` of the Rust signature can
only arise from external enqueue failures, which the model treats as
infallible). -/
def Fri.prove (O : Oracle F D) (lift : K →+* F) (fri : Fri K)
    (codeword : List F) (s : ProofStream F D) :
    Except (ProofStream F D) (ProofStream F D × List Nat) :=
  if fri.domain.length = codeword.length then
    let c := fri.commit O lift codeword s
    match fri.sample_indices O (proverFS O c.1) with
    | none => .error c.1
    | some top_level_indices =>
      let layer0 := c.2.1.headD ([], [])
      let s1 := enqueueAuthPairs top_level_indices codeword layer0.2 c.1
      let s2 := proveQueryRounds top_level_indices fri.domain.length
        c.2.1.dropLast s1
      .ok (s2, top_level_indices)
  else
    .error s

/-- Modelled from the spec: `Polynomial::get_colinear_y` — the y-value at `x`
of the line through the two points. -/
def getColinearY (p0 p1 : F × F) (x : F) : F :=
  p0.2 + (p1.2 - p0.2) * (x - p0.1) / (p1.1 - p0.1)

/-- `Fri::get_evaluation_argument` (fri.rs lines 471-474). -/
def Fri.get_evaluation_argument (fri : Fri K) (idx round : Nat) : K :=
  (fri.domain.offset * fri.domain.omega ^ idx) ^ (2 ^ round)

/-- `Fri::dequeue_and_authenticate` (fri.rs lines 141-161). -/
def dequeueAndAuthenticate (O : Oracle F D) (indices : List Nat) (root : D)
    (s : ProofStream F D) : Except VError (List F × ProofStream F D) :=
  match s.dequeueBundle with
  | .error e => .error e
  | .ok (pairs, s1) =>
    let paths := pairs.map (·.1)
    let values := pairs.map (·.2)
    let digests := values.map O.hashElem
    if verifyAuthStructure O root indices (paths.zip digests) then .ok (values, s1)
    else .error .badMerkleProof

/-- The root-and-challenge extraction loop of `Fri::verify` (fri.rs lines
345-351). -/
def extractRoots (O : Oracle F D) :
    Nat → ProofStream F D → Except VError (List D × List F × ProofStream F D)
  | 0, s => .ok ([], [], s)
  | rounds + 1, s =>
    let challenge := verifierFS O s
    let alpha := O.sample challenge
    match s.dequeueRoot with
    | .error e => .error e
    | .ok (root, s1) =>
      match extractRoots O rounds s1 with
      | .error e => .error e
      | .ok (roots, alphas, s2) => .ok (root :: roots, alpha :: alphas, s2)

/-- The query loop of `Fri::verify` (fri.rs lines 401-466): per round,
authenticate the b-values against the round's root, fold indices and values,
and record the layer-0 openings in the returned evaluation list. -/
def verifyQueryRounds (O : Oracle F D) (lift : K →+* F) (fri : Fri K)
    (roots : List D) (alphas : List F) :
    Nat → Nat → List Nat → List F → List Nat → Nat → List (Nat × F) →
    ProofStream F D → Except VError (ProofStream F D × List (Nat × F))
  | _, 0, _, _, _, _, acc, s => .ok (s, acc)
  | r, remaining + 1, aIndices, aValues, bIndices, currentLen, acc, s =>
    let b := bIndices.map fun x => (x + currentLen / 2) % currentLen
    match dequeueAndAuthenticate O b (roots.getD r (O.mtRoot [])) s with
    | .error e => .error e
    | .ok (bValues, s1) =>
      let len1 := currentLen / 2
      let cIndices := aIndices.map (· % len1)
      let cValues := (List.range fri.colinearity_checks_count).map fun i =>
        getColinearY
          (lift (fri.get_evaluation_argument (aIndices.getD i 0) r), aValues.getD i 0)
          (lift (fri.get_evaluation_argument (b.getD i 0) r), bValues.getD i 0)
          (alphas.getD r 0)
      let acc1 :=
        if r = 0 then
          acc ++ (List.range fri.colinearity_checks_count).flatMap fun j =>
            [(aIndices.getD j 0, aValues.getD j 0), (b.getD j 0, bValues.getD j 0)]
        else acc
      verifyQueryRounds O lift fri roots alphas (r + 1) remaining cIndices cValues
        b len1 acc1 s1

/-- The repeated-squaring loop computing `ω^{2^R}` (fri.rs lines 369-374). -/
def iterSquare (x : K) : Nat → K
  | 0 => x
  | n + 1 => iterSquare (x * x) n

/-- `Fri::verify` (fri.rs lines 331-469). The state-passing translation also
returns the stream; the Rust function mutates it in place. -/
def Fri.verify (O : Oracle F D) (lift : K →+* F) (fri : Fri K)
    (s : ProofStream F D) : Except VError (ProofStream F D × List (Nat × F)) :=
  let nr := fri.num_rounds
  match s.dequeueRoot with
  | .error e => .error e
  | .ok (firstRoot, s1) =>
  match extractRoots O nr.1 s1 with
  | .error e => .error e
  | .ok (restRoots, alphas, s2) =>
  let roots := firstRoot :: restRoots
  match s2.dequeueCodeword with
  | .error e => .error e
  | .ok (last_codeword, s3) =>
  let leaves := last_codeword.map O.hashElem
  if O.mtRoot leaves ≠ roots.getLastD firstRoot then
    .error .badMerkleRootForLastCodeword
  else
  let last_omega := iterSquare fri.domain.omega nr.1
  let interpolant := inttL (lift last_omega) last_codeword
  if polyDegree interpolant > (nr.2 : Int) then
    .error .lastIterationTooHighDegree
  else
  match fri.sample_indices O (verifierFS O s3) with
  | none => .error .aborted
  | some aIndices =>
  match dequeueAndAuthenticate O aIndices (roots.getD 0 firstRoot) s3 with
  | .error e => .error e
  | .ok (aValues, s4) =>
  verifyQueryRounds O lift fri roots alphas 0 nr.1 aIndices aValues aIndices
    fri.domain.length [] s4

end Protocol

instance fact_prime_5 : Fact (Nat.Prime 5) :=
  ⟨by norm_num⟩

section RoundCount

variable {K : Type} [Field K] [DecidableEq K]

theorem log2CeilFuel_eq_clog : ∀ fuel n, n ≤ fuel → log2CeilFuel fuel n = Nat.clog 2 n := by
  intro fuel
  induction fuel with
  | zero =>
    intro n hn
    interval_cases n
    simp [log2CeilFuel, Nat.clog]
  | succ f ih =>
    intro n hn
    unfold log2CeilFuel
    by_cases h1 : n ≤ 1
    · rw [if_pos h1, Nat.clog_of_right_le_one h1]
    · push_neg at h1
      rw [if_neg (by omega), ih ((n + 1) / 2) (by omega)]
      have h21 : (n + 2 - 1) / 2 = (n + 1) / 2 := by omega
      rw [Nat.clog_of_two_le (by norm_num) h1, h21]

theorem log2Ceil_eq_clog (n : Nat) : log2Ceil n = Nat.clog 2 n :=
  log2CeilFuel_eq_clog n n le_rfl

theorem log2Ceil_pow (n : Nat) : log2Ceil (2 ^ n) = n := by
  rw [log2Ceil_eq_clog, Nat.clog_pow 2 n (by norm_num)]

/-- C5. Round-count formula: `num_rounds()` returns `(R, δ)` with
`max_degree = N/ρ − 1`, `R = ⌈log₂(max_degree + 1)⌉`, `δ = 0`, except that when
`ρ < q` the round count is reduced by `missed = ⌈log₂⌈q/ρ⌉⌉` and
`δ = 2^missed − 1`, all in exact integer arithmetic (`⌈q/ρ⌉ = (q + ρ − 1)/ρ`).
The power-of-two hypothesis on the expansion factor is what makes the source's
`f64` ceiling division exact, cf. the comment on `Fri.num_rounds`. -/
theorem num_rounds_formula (fri : Fri K) (e : Nat)
    (hρ : fri.expansion_factor = 2 ^ e) :
    fri.num_rounds =
      (if fri.expansion_factor < fri.colinearity_checks_count then
        (Nat.clog 2 (fri.domain.length / fri.expansion_factor - 1 + 1)
           - Nat.clog 2 ((fri.colinearity_checks_count + fri.expansion_factor - 1)
               / fri.expansion_factor),
         2 ^ Nat.clog 2 ((fri.colinearity_checks_count + fri.expansion_factor - 1)
               / fri.expansion_factor) - 1)
      else
        (Nat.clog 2 (fri.domain.length / fri.expansion_factor - 1 + 1), 0)) := by
  rw [Fri.num_rounds]
  by_cases h : fri.expansion_factor < fri.colinearity_checks_count
  · simp only [if_pos h, log2Ceil_eq_clog]
  · simp only [if_neg h, log2Ceil_eq_clog]

theorem num_rounds_formula_witness :
    (Fri.mk 4 8 (FriDomain.mk (1 : ZMod 5) 1 512)).num_rounds = (6, 1) := by
  rw [num_rounds_formula (Fri.mk 4 8 (FriDomain.mk (1 : ZMod 5) 1 512)) 2 rfl]
  simp only [← log2Ceil_eq_clog]
  decide

/-- C4 counterexample: for `N = 256`, `ρ = 4`, `q = 2` the code does **not**
return `(2, 15)` — since `ρ < q` fails, no rounds are skipped. The spec's
table row carried over the `q = 33` of the preceding test lines. -/
theorem num_rounds_256_4_2_cex :
    (Fri.mk 4 2 (FriDomain.mk (1 : ZMod 5) 1 256)).num_rounds ≠ (2, 15) := by
  decide

/-- C4 amended: for `N = 256`, `ρ = 4`, `q = 2`, `num_rounds()` returns
`(6, 0)` (`max_degree = 63`, `R = ⌈log₂ 64⌉ = 6`, and `ρ = 4 ≥ 2 = q` so no
reduction); the spec's `(2, 15)` corresponds to `q = 33`. -/
theorem num_rounds_256_4_2 :
    (Fri.mk 4 2 (FriDomain.mk (1 : ZMod 5) 1 256)).num_rounds = (6, 0) := by
  decide

end RoundCount

section ProveAssert

variable {K F D : Type} [Field K] [DecidableEq K] [Field F] [DecidableEq F] [DecidableEq D]

/-- C10. `prove` asserts `domain.length == codeword.len()` before anything
else: on any codeword of the wrong length it aborts (modelled by the `.error`
panic channel, which is distinct from a Rust `Err` return) before writing any
transcript message — the stream carried out is exactly the input stream. -/
theorem prove_wrong_length_aborts (O : Oracle F D) (lift : K →+* F)
    (fri : Fri K) (codeword : List F) (s : ProofStream F D)
    (h : fri.domain.length ≠ codeword.length) :
    fri.prove O lift codeword s = .error s := by
  rw [Fri.prove, if_neg h]

/-- Concrete oracle over `F = ZMod 5`, `D = Nat`, used to instantiate the
parametric theorems on executable inputs. -/
def testOracle : Oracle (ZMod 5) Nat where
  hashElem := fun x => x.val + 1
  hashPair := fun d c => d + c
  sampleIndexNPT := fun d n => d % n
  sampleIndexBit := fun d => d % 2 == 0
  sample := fun d => (d : ZMod 5)
  mtRoot := fun l => l.foldl (fun acc a => acc * 31 + a) 7
  fs := fun msgs => msgs.length

theorem testOracle_sampleIndexNPT_lt :
    ∀ d n, 0 < n → testOracle.sampleIndexNPT d n < n :=
  fun d _ h => Nat.mod_lt d h

theorem prove_wrong_length_aborts_witness :
    (Fri.mk 2 1 (FriDomain.mk (1 : ZMod 5) 2 4)).prove testOracle
        (RingHom.id (ZMod 5)) [] ⟨[], []⟩
      = .error ⟨[], []⟩ :=
  prove_wrong_length_aborts testOracle (RingHom.id (ZMod 5))
    (Fri.mk 2 1 (FriDomain.mk (1 : ZMod 5) 2 4)) [] ⟨[], []⟩ (by decide)

end ProveAssert

section Sampler

variable {K F D : Type} [Field K] [DecidableEq K] [Field F] [DecidableEq F] [DecidableEq D]

theorem sampleLastIndices_spec (O : Oracle F D) (seed : D)
    (hNPT : ∀ d n, 0 < n → O.sampleIndexNPT d n < n) :
    ∀ (count : Nat) (pool : List Nat) (counter : Nat), pool.Nodup → count ≤ pool.length →
      (sampleLastIndices O seed count pool counter).1.length = count
        ∧ (sampleLastIndices O seed count pool counter).1.Nodup
        ∧ ∀ x ∈ (sampleLastIndices O seed count pool counter).1, x ∈ pool := by
  intro count
  induction count with
  | zero =>
    intro pool counter _ _
    refine ⟨rfl, List.nodup_nil, ?_⟩
    intro x hx
    simp [sampleLastIndices] at hx
  | succ c ih =>
    intro pool counter hnd hlen
    have hpos : 0 < pool.length := by omega
    have hidx : O.sampleIndexNPT (O.hashPair seed counter) pool.length < pool.length :=
      hNPT _ _ hpos
    set i := O.sampleIndexNPT (O.hashPair seed counter) pool.length with hi
    have herase : pool.eraseIdx i = pool.erase pool[i] := (hnd.erase_getElem i hidx).symm
    have hnd' : (pool.eraseIdx i).Nodup := by
      rw [herase]
      exact hnd.erase _
    have hlen' : (pool.eraseIdx i).length = pool.length - 1 := by
      have := List.length_eraseIdx_add_one hidx
      omega
    obtain ⟨ihlen, ihnd, ihmem⟩ := ih (pool.eraseIdx i) (counter + 1) hnd' (by omega)
    have hgetD : pool.getD i 0 = pool[i] := List.getD_eq_getElem _ _ hidx
    have hunf : sampleLastIndices O seed (c + 1) pool counter
        = (pool.getD i 0 :: (sampleLastIndices O seed c (pool.eraseIdx i) (counter + 1)).1,
           (sampleLastIndices O seed c (pool.eraseIdx i) (counter + 1)).2) := by
      simp only [sampleLastIndices, hi]
    rw [hunf]
    refine ⟨by simp [ihlen], ?_, ?_⟩
    · rw [List.nodup_cons]
      refine ⟨?_, ihnd⟩
      intro hmem
      have hin : pool.getD i 0 ∈ pool.eraseIdx i := ihmem _ hmem
      rw [herase, hgetD] at hin
      exact ((List.Nodup.mem_erase_iff hnd).mp hin).1 rfl
    · intro x hx
      rcases List.mem_cons.mp hx with rfl | hx'
      · rw [hgetD]
        exact List.getElem_mem hidx
      · have := ihmem _ hx'
        rw [herase] at this
        exact List.mem_of_mem_erase this

theorem liftRoundIndices_length (O : Oracle F D) (seed : D) (halfLen : Nat) :
    ∀ (idxs : List Nat) (counter : Nat),
      (liftRoundIndices O seed halfLen idxs counter).1.length = idxs.length := by
  intro idxs
  induction idxs with
  | nil => intro counter; rfl
  | cons i rest ih =>
    intro counter
    simp only [liftRoundIndices, List.length_cons, ih]

theorem liftRoundIndices_getD_mod (O : Oracle F D) (seed : D) {L halfLen : Nat}
    (hdvd : L ∣ halfLen) :
    ∀ (idxs : List Nat) (counter j : Nat),
      (liftRoundIndices O seed halfLen idxs counter).1.getD j 0 % L
        = idxs.getD j 0 % L := by
  intro idxs
  induction idxs with
  | nil => intro counter j; rfl
  | cons i rest ih =>
    intro counter j
    obtain ⟨t, rfl⟩ := hdvd
    cases j with
    | zero =>
      simp only [liftRoundIndices, List.getD_cons_zero]
      by_cases hb : O.sampleIndexBit (O.hashPair seed counter)
      · rw [if_pos hb, Nat.add_mul_mod_self_left]
      · rw [if_neg hb]
    | succ j =>
      simp only [liftRoundIndices, List.getD_cons_succ]
      exact ih (counter + 1) j

theorem liftRoundIndices_mem_lt (O : Oracle F D) (seed : D) (halfLen bound : Nat) :
    ∀ (idxs : List Nat) (counter : Nat), (∀ x ∈ idxs, x < bound) →
      ∀ y ∈ (liftRoundIndices O seed halfLen idxs counter).1, y < bound + halfLen := by
  intro idxs
  induction idxs with
  | nil =>
    intro counter _ y hy
    simp [liftRoundIndices] at hy
  | cons i rest ih =>
    intro counter hb y hy
    simp only [liftRoundIndices, List.mem_cons] at hy
    rcases hy with rfl | hy'
    · have := hb i (List.mem_cons_self i rest)
      by_cases hbit : O.sampleIndexBit (O.hashPair seed counter)
      · rw [if_pos hbit]; omega
      · rw [if_neg hbit]; omega
    · exact ih (counter + 1) (fun x hx => hb x (List.mem_cons_of_mem _ hx)) y hy'

theorem liftAllIndices_length (O : Oracle F D) (seed : D) :
    ∀ (k halfLen : Nat) (idxs : List Nat) (counter : Nat),
      (liftAllIndices O seed k halfLen idxs counter).length = idxs.length := by
  intro k
  induction k with
  | zero => intro halfLen idxs counter; rfl
  | succ k ih =>
    intro halfLen idxs counter
    simp only [liftAllIndices]
    rw [ih, liftRoundIndices_length]

theorem liftAllIndices_getD_mod (O : Oracle F D) (seed : D) {L : Nat} :
    ∀ (k halfLen : Nat), L ∣ halfLen → ∀ (idxs : List Nat) (counter j : Nat),
      (liftAllIndices O seed k halfLen idxs counter).getD j 0 % L
        = idxs.getD j 0 % L := by
  intro k
  induction k with
  | zero => intro halfLen _ idxs counter j; rfl
  | succ k ih =>
    intro halfLen hdvd idxs counter j
    simp only [liftAllIndices]
    rw [ih (halfLen * 2) (hdvd.mul_right 2), liftRoundIndices_getD_mod O seed hdvd]

theorem liftAllIndices_mem_lt (O : Oracle F D) (seed : D) :
    ∀ (k halfLen : Nat) (idxs : List Nat) (counter : Nat),
      (∀ x ∈ idxs, x < halfLen) →
      ∀ y ∈ liftAllIndices O seed k halfLen idxs counter, y < halfLen * 2 ^ k := by
  intro k
  induction k with
  | zero =>
    intro halfLen idxs counter hb y hy
    simpa using hb y hy
  | succ k ih =>
    intro halfLen idxs counter hb y hy
    simp only [liftAllIndices] at hy
    have hstep := liftRoundIndices_mem_lt O seed halfLen halfLen idxs counter hb
    have := ih (halfLen * 2) _ _ (fun x hx => by
      have := hstep x hx
      omega) y hy
    have hpow : halfLen * 2 * 2 ^ k = halfLen * 2 ^ (k + 1) := by ring
    omega

/-- C8. Index-sampler distinctness: under the precondition `q ≤ L` (the
`assert!` in `sample_indices`), the `q` last-layer indices drawn in phase one
of `Fri::sample_indices` are pairwise distinct naturals in `[0, L)`, and
`sample_indices` succeeds, returning their lifting to the top layer. -/
theorem sample_indices_last_layer_distinct (O : Oracle F D) (fri : Fri K) (seed : D)
    (hNPT : ∀ d n, 0 < n → O.sampleIndexNPT d n < n)
    (hqL : fri.colinearity_checks_count ≤ fri.domain.length >>> fri.num_rounds.1) :
    (sampleLastIndices O seed fri.colinearity_checks_count
        (List.range (fri.domain.length >>> fri.num_rounds.1)) 0).1.length
        = fri.colinearity_checks_count
      ∧ (sampleLastIndices O seed fri.colinearity_checks_count
          (List.range (fri.domain.length >>> fri.num_rounds.1)) 0).1.Nodup
      ∧ (∀ x ∈ (sampleLastIndices O seed fri.colinearity_checks_count
          (List.range (fri.domain.length >>> fri.num_rounds.1)) 0).1,
          x < fri.domain.length >>> fri.num_rounds.1)
      ∧ fri.sample_indices O seed
          = some (liftAllIndices O seed (fri.num_rounds.1 - 1)
              (fri.domain.length >>> fri.num_rounds.1)
              (sampleLastIndices O seed fri.colinearity_checks_count
                (List.range (fri.domain.length >>> fri.num_rounds.1)) 0).1
              (sampleLastIndices O seed fri.colinearity_checks_count
                (List.range (fri.domain.length >>> fri.num_rounds.1)) 0).2) := by
  obtain ⟨h1, h2, h3⟩ := sampleLastIndices_spec O seed hNPT fri.colinearity_checks_count
    (List.range (fri.domain.length >>> fri.num_rounds.1)) 0 (List.nodup_range _)
    (by simpa using hqL)
  refine ⟨h1, h2, fun x hx => List.mem_range.mp (h3 x hx), ?_⟩
  rw [Fri.sample_indices, if_pos hqL]

theorem sample_indices_last_layer_distinct_witness :
    (sampleLastIndices testOracle 3 1 (List.range 2) 0).1.Nodup :=
  (sample_indices_last_layer_distinct testOracle
    (Fri.mk 2 1 (FriDomain.mk (1 : ZMod 5) 2 4)) 3
    testOracle_sampleIndexNPT_lt (by decide)).2.1

/-- C7. Index-sampler folding relation: under the precondition `q ≤ L`,
`sample_indices` succeeds and each returned top-layer index reduces, modulo the
last-layer length `L`, to the corresponding last-layer index drawn in phase
one. -/
theorem sample_indices_fold_relation (O : Oracle F D) (fri : Fri K) (seed : D)
    (hNPT : ∀ d n, 0 < n → O.sampleIndexNPT d n < n)
    (hqL : fri.colinearity_checks_count ≤ fri.domain.length >>> fri.num_rounds.1) :
    ∃ tops, fri.sample_indices O seed = some tops
      ∧ tops.length = fri.colinearity_checks_count
      ∧ ∀ j < fri.colinearity_checks_count,
          tops.getD j 0 % (fri.domain.length >>> fri.num_rounds.1)
            = (sampleLastIndices O seed fri.colinearity_checks_count
                (List.range (fri.domain.length >>> fri.num_rounds.1)) 0).1.getD j 0 := by
  obtain ⟨hlen, hnd, hmem, heq⟩ :=
    sample_indices_last_layer_distinct O fri seed hNPT hqL
  refine ⟨_, heq, ?_, ?_⟩
  · rw [liftAllIndices_length, hlen]
  · intro j hj
    rw [liftAllIndices_getD_mod O seed _ _ (dvd_refl _)]
    apply Nat.mod_eq_of_lt
    apply hmem
    rw [List.getD_eq_getElem _ _ (by omega)]
    exact List.getElem_mem (by omega)

theorem sample_indices_fold_relation_witness :
    ∃ tops, (Fri.mk 2 1 (FriDomain.mk (1 : ZMod 5) 2 4)).sample_indices testOracle 3
        = some tops
      ∧ tops.length = 1
      ∧ ∀ j < 1, tops.getD j 0 % 2
          = (sampleLastIndices testOracle 3 1 (List.range 2) 0).1.getD j 0 :=
  sample_indices_fold_relation testOracle (Fri.mk 2 1 (FriDomain.mk (1 : ZMod 5) 2 4)) 3
    testOracle_sampleIndexNPT_lt (by decide)

end Sampler

section CommitLemmas

variable {K F D : Type} [Field K] [DecidableEq K] [Field F] [DecidableEq F] [DecidableEq D]

theorem foldCodeword_length (lift : K →+* F) (alpha : F) (gen off : K) (cw : List F) :
    (foldCodeword lift alpha gen off cw).length = cw.length / 2 := by
  simp [foldCodeword]

theorem foldCodeword_getD (lift : K →+* F) (alpha : F) (gen off : K) (cw : List F)
    {i : Nat} (hi : i < cw.length / 2) :
    (foldCodeword lift alpha gen off cw).getD i 0
      = (2 : F)⁻¹ * ((1 + alpha * (lift off * lift gen ^ i)⁻¹) * cw.getD i 0
          + (1 - alpha * (lift off * lift gen ^ i)⁻¹) * cw.getD (cw.length / 2 + i) 0) := by
  unfold foldCodeword
  rw [getD_map_range _ _ hi]
  have h1 : ((1 : F) / (1 + 1)) = (2 : F)⁻¹ := by norm_num
  have h2 : lift ((gen ^ i * off)⁻¹) = (lift off * lift gen ^ i)⁻¹ := by
    rw [map_inv₀, map_mul, map_pow, mul_comm]
  rw [h1, h2]

theorem commitRounds_stream (O : Oracle F D) (lift : K →+* F) :
    ∀ (rounds : Nat) (gen off : K) (cw : List F) (s : ProofStream F D),
      ∃ ds : List D, ds.length = rounds ∧
        (commitRounds O lift rounds gen off cw s).1
          = ⟨s.past, s.future ++ ds.map Msg.root⟩ := by
  intro rounds
  induction rounds with
  | zero =>
    intro gen off cw s
    exact ⟨[], rfl, by cases s; simp [commitRounds]⟩
  | succ n ih =>
    intro gen off cw s
    simp only [commitRounds]
    obtain ⟨ds, hlen, hstream⟩ := ih (gen * gen) (off * off)
      (foldCodeword lift (O.sample (proverFS O s)) gen off cw)
      (s.enqueue (Msg.root (O.mtRoot
        ((foldCodeword lift (O.sample (proverFS O s)) gen off cw).map O.hashElem))))
    refine ⟨O.mtRoot ((foldCodeword lift (O.sample (proverFS O s)) gen off cw).map
      O.hashElem) :: ds, by simp [hlen], ?_⟩
    rw [hstream]
    simp [ProofStream.enqueue]

theorem commitRounds_layers_length (O : Oracle F D) (lift : K →+* F) :
    ∀ (rounds : Nat) (gen off : K) (cw : List F) (s : ProofStream F D),
      (commitRounds O lift rounds gen off cw s).2.1.length = rounds := by
  intro rounds
  induction rounds with
  | zero => intro gen off cw s; rfl
  | succ n ih =>
    intro gen off cw s
    simp only [commitRounds, List.length_cons]
    rw [ih]

theorem commitRounds_alphas_length (O : Oracle F D) (lift : K →+* F) :
    ∀ (rounds : Nat) (gen off : K) (cw : List F) (s : ProofStream F D),
      (commitRounds O lift rounds gen off cw s).2.2.2.length = rounds := by
  intro rounds
  induction rounds with
  | zero => intro gen off cw s; rfl
  | succ n ih =>
    intro gen off cw s
    simp only [commitRounds, List.length_cons]
    rw [ih]

theorem commitRounds_getD_fold (O : Oracle F D) (lift : K →+* F) :
    ∀ (rounds : Nat) (gen off : K) (cw : List F) (s : ProofStream F D) (r : Nat),
      r < rounds →
      ((commitRounds O lift rounds gen off cw s).2.1.getD r ([], [])).1
        = foldCodeword lift ((commitRounds O lift rounds gen off cw s).2.2.2.getD r 0)
            (gen ^ 2 ^ r) (off ^ 2 ^ r)
            (if r = 0 then cw
             else ((commitRounds O lift rounds gen off cw s).2.1.getD (r - 1) ([], [])).1) := by
  intro rounds
  induction rounds with
  | zero => intro gen off cw s r hr; omega
  | succ n ih =>
    intro gen off cw s r hr
    simp only [commitRounds]
    cases r with
    | zero =>
      simp only [List.getD_cons_zero, pow_zero, pow_one]
      simp
    | succ j =>
      simp only [List.getD_cons_succ, if_neg (Nat.succ_ne_zero j), Nat.succ_sub_one]
      have hrec := ih (gen * gen) (off * off)
        (foldCodeword lift (O.sample (proverFS O s)) gen off cw)
        (s.enqueue (Msg.root (O.mtRoot
          ((foldCodeword lift (O.sample (proverFS O s)) gen off cw).map O.hashElem))))
        j (by omega)
      rw [hrec]
      have hgen : (gen * gen) ^ 2 ^ j = gen ^ 2 ^ (j + 1) := by
        rw [← pow_two, ← pow_mul, pow_succ, mul_comm (2 ^ j) 2]
      have hoff : (off * off) ^ 2 ^ j = off ^ 2 ^ (j + 1) := by
        rw [← pow_two, ← pow_mul, pow_succ, mul_comm (2 ^ j) 2]
      rw [hgen, hoff]
      cases j with
      | zero => simp
      | succ m => simp only [if_neg (Nat.succ_ne_zero m), List.getD_cons_succ, Nat.succ_sub_one]

theorem commitRounds_getD_length (O : Oracle F D) (lift : K →+* F) :
    ∀ (rounds : Nat) (gen off : K) (cw : List F) (s : ProofStream F D) (r : Nat),
      r < rounds →
      ((commitRounds O lift rounds gen off cw s).2.1.getD r ([], [])).1.length
        = cw.length / 2 ^ (r + 1) := by
  intro rounds
  induction rounds with
  | zero => intro gen off cw s r hr; omega
  | succ n ih =>
    intro gen off cw s r hr
    simp only [commitRounds]
    cases r with
    | zero =>
      simp only [List.getD_cons_zero]
      rw [foldCodeword_length, pow_one]
    | succ j =>
      simp only [List.getD_cons_succ]
      rw [ih _ _ _ _ j (by omega), foldCodeword_length, Nat.div_div_eq_div_mul]
      congr 1
      ring

theorem commitRounds_final (O : Oracle F D) (lift : K →+* F) :
    ∀ (rounds : Nat) (gen off : K) (cw : List F) (s : ProofStream F D),
      (commitRounds O lift rounds gen off cw s).2.2.1
        = (if rounds = 0 then cw
           else ((commitRounds O lift rounds gen off cw s).2.1.getD (rounds - 1) ([], [])).1) := by
  intro rounds
  induction rounds with
  | zero => intro gen off cw s; rfl
  | succ n ih =>
    intro gen off cw s
    simp only [commitRounds, if_neg (Nat.succ_ne_zero n), Nat.succ_sub_one]
    rw [ih]
    cases n with
    | zero => simp
    | succ m => simp only [if_neg (Nat.succ_ne_zero m), List.getD_cons_succ, Nat.succ_sub_one]

/-- The bundle payloads emitted by `proveQueryRounds`, in order. -/
def proveQueryBundles : List Nat → Nat → List (List F × List D) →
    List (List ((List D × Nat) × F))
  | _, _, [] => []
  | bIdx, len, layer :: rest =>
    authPairs layer.2 (bIdx.map fun x => (x + len / 2) % len) layer.1
      :: proveQueryBundles (bIdx.map fun x => (x + len / 2) % len) (len / 2) rest

theorem proveQueryBundles_length :
    ∀ (layers : List (List F × List D)) (bIdx : List Nat) (len : Nat),
      (proveQueryBundles bIdx len layers).length = layers.length := by
  intro layers
  induction layers with
  | nil => intro bIdx len; rfl
  | cons layer rest ih =>
    intro bIdx len
    simp only [proveQueryBundles, List.length_cons, ih]

theorem proveQueryRounds_eq :
    ∀ (layers : List (List F × List D)) (bIdx : List Nat) (len : Nat)
      (s : ProofStream F D),
      proveQueryRounds bIdx len layers s
        = ⟨s.past, s.future ++ (proveQueryBundles bIdx len layers).map Msg.bundle⟩ := by
  intro layers
  induction layers with
  | nil =>
    intro bIdx len s
    cases s
    simp [proveQueryRounds, proveQueryBundles]
  | cons layer rest ih =>
    intro bIdx len s
    simp only [proveQueryRounds, proveQueryBundles, List.map_cons]
    rw [ih]
    simp [enqueueAuthPairs, ProofStream.enqueue]

/-- A successful `prove` run, in closed form: the sampled top indices exist and
the result is the query rounds run on the committed stream. -/
theorem prove_eq_of_valid (O : Oracle F D) (lift : K →+* F) (fri : Fri K)
    (codeword : List F) (s : ProofStream F D)
    (hlen : fri.domain.length = codeword.length)
    (hqL : fri.colinearity_checks_count ≤ fri.domain.length >>> fri.num_rounds.1) :
    ∃ top, fri.sample_indices O (proverFS O (fri.commit O lift codeword s).1) = some top
      ∧ fri.prove O lift codeword s
        = .ok (proveQueryRounds top fri.domain.length
                 (fri.commit O lift codeword s).2.1.dropLast
                 (enqueueAuthPairs top codeword
                   ((fri.commit O lift codeword s).2.1.headD ([], [])).2
                   (fri.commit O lift codeword s).1),
               top) := by
  have hsome : fri.sample_indices O (proverFS O (fri.commit O lift codeword s).1)
      = some (liftAllIndices O (proverFS O (fri.commit O lift codeword s).1)
          (fri.num_rounds.1 - 1) (fri.domain.length >>> fri.num_rounds.1)
          (sampleLastIndices O (proverFS O (fri.commit O lift codeword s).1)
            fri.colinearity_checks_count
            (List.range (fri.domain.length >>> fri.num_rounds.1)) 0).1
          (sampleLastIndices O (proverFS O (fri.commit O lift codeword s).1)
            fri.colinearity_checks_count
            (List.range (fri.domain.length >>> fri.num_rounds.1)) 0).2) := by
    rw [Fri.sample_indices, if_pos hqL]
  refine ⟨_, hsome, ?_⟩
  rw [Fri.prove, if_pos hlen]
  simp only [hsome]

/-- The stream produced by `Fri.commit`, in closed form: `R+1` roots then the
last codeword. -/
theorem commit_stream_shape (O : Oracle F D) (lift : K →+* F) (fri : Fri K)
    (codeword : List F) (s : ProofStream F D) :
    ∃ (ds : List D) (lc : List F),
      ds.length = fri.num_rounds.1 + 1
        ∧ (fri.commit O lift codeword s).1
            = ⟨s.past, s.future ++ ds.map Msg.root ++ [Msg.codeword lc]⟩ := by
  obtain ⟨ds0, hds0, hstream0⟩ := commitRounds_stream O lift fri.num_rounds.1
    fri.domain.omega fri.domain.offset codeword
    (s.enqueue (Msg.root (O.mtRoot (codeword.map O.hashElem))))
  refine ⟨O.mtRoot (codeword.map O.hashElem) :: ds0,
    (commitRounds O lift fri.num_rounds.1 fri.domain.omega fri.domain.offset codeword
      (s.enqueue (Msg.root (O.mtRoot (codeword.map O.hashElem))))).2.2.1,
    by simp [hds0], ?_⟩
  have hc : (fri.commit O lift codeword s).1
      = (commitRounds O lift fri.num_rounds.1 fri.domain.omega fri.domain.offset
          codeword (s.enqueue (Msg.root (O.mtRoot (codeword.map O.hashElem))))).1.enqueue
          (Msg.codeword (commitRounds O lift fri.num_rounds.1 fri.domain.omega
            fri.domain.offset codeword
            (s.enqueue (Msg.root (O.mtRoot (codeword.map O.hashElem))))).2.2.1) := rfl
  rw [hc, hstream0]
  simp [ProofStream.enqueue]

/-- The layer list produced by `Fri.commit` has `R+1` entries. -/
theorem commit_layers_length (O : Oracle F D) (lift : K →+* F) (fri : Fri K)
    (codeword : List F) (s : ProofStream F D) :
    (fri.commit O lift codeword s).2.1.length = fri.num_rounds.1 + 1 := by
  have hc : (fri.commit O lift codeword s).2.1
      = (codeword, codeword.map O.hashElem)
          :: (commitRounds O lift fri.num_rounds.1 fri.domain.omega fri.domain.offset
            codeword (s.enqueue (Msg.root (O.mtRoot (codeword.map O.hashElem))))).2.1 := rfl
  rw [hc, List.length_cons, commitRounds_layers_length]

/-- The message shape of a successful `prove` (used for C3): `R+1` layer roots,
the last codeword, a **single** a-bundle (for the top layer against layer 0),
then one b-bundle per round `r = 0 .. R-1` against layer `r` — `R+1` query
bundles in total. -/
theorem prove_stream_shape (O : Oracle F D) (lift : K →+* F) (fri : Fri K)
    (codeword : List F) (s : ProofStream F D)
    (hlen : fri.domain.length = codeword.length)
    (hqL : fri.colinearity_checks_count ≤ fri.domain.length >>> fri.num_rounds.1) :
    ∃ (s1 : ProofStream F D) (top : List Nat) (ds : List D) (lc : List F)
      (ab : List ((List D × Nat) × F)) (bs : List (List ((List D × Nat) × F))),
      fri.prove O lift codeword s = .ok (s1, top)
        ∧ ds.length = fri.num_rounds.1 + 1
        ∧ bs.length = fri.num_rounds.1
        ∧ s1.past = s.past
        ∧ s1.future = s.future ++ ds.map Msg.root ++ [Msg.codeword lc]
            ++ [Msg.bundle ab] ++ bs.map Msg.bundle := by
  obtain ⟨top, hsome, hprove⟩ := prove_eq_of_valid O lift fri codeword s hlen hqL
  obtain ⟨ds, lc, hds, hcs⟩ := commit_stream_shape O lift fri codeword s
  refine ⟨_, top, ds, lc,
    authPairs ((fri.commit O lift codeword s).2.1.headD ([], [])).2 top codeword,
    proveQueryBundles top fri.domain.length (fri.commit O lift codeword s).2.1.dropLast,
    hprove, hds, ?_, ?_, ?_⟩
  · rw [proveQueryBundles_length, List.length_dropLast, commit_layers_length]
    omega
  · rw [proveQueryRounds_eq]
    simp only [enqueueAuthPairs, ProofStream.enqueue, hcs]
  · rw [proveQueryRounds_eq]
    simp only [enqueueAuthPairs, ProofStream.enqueue, hcs]

end CommitLemmas

section TranscriptOrder

variable {K F D : Type} [Field K] [DecidableEq K] [Field F] [DecidableEq F] [DecidableEq D]

/-- C3 counterexample: at `N = 8`, `ρ = 2`, `q = 1` (so `R = 2` rounds),
`prove` succeeds but its transcript is **not** of the claimed shape
`roots, last codeword, (a-bundle, b-bundle) per round` — that shape would
contain `2R = 4` query bundles, while the code emits only `R + 1 = 3`
(one top-layer a-bundle, then a single b-bundle per round). -/
theorem prove_transcript_order_cex :
    ∃ (s1 : ProofStream (ZMod 5) Nat) (top : List Nat),
      (Fri.mk 2 1 (FriDomain.mk (1 : ZMod 5) 1 8)).prove testOracle (RingHom.id (ZMod 5))
          (List.replicate 8 0) ⟨[], []⟩ = .ok (s1, top)
        ∧ ¬ ∃ (ds : List Nat) (lc : List (ZMod 5))
              (bs : List (List ((List Nat × Nat) × ZMod 5))),
              ds.length = 2 + 1 ∧ bs.length = 2 * 2
                ∧ s1.future = ds.map Msg.root ++ [Msg.codeword lc]
                    ++ bs.map Msg.bundle := by
  obtain ⟨top, hsome, hprove⟩ := prove_eq_of_valid testOracle (RingHom.id (ZMod 5))
    (Fri.mk 2 1 (FriDomain.mk (1 : ZMod 5) 1 8)) (List.replicate 8 0) ⟨[], []⟩
    (by decide) (by decide)
  obtain ⟨ds, lc, hds, hcs⟩ := commit_stream_shape testOracle (RingHom.id (ZMod 5))
    (Fri.mk 2 1 (FriDomain.mk (1 : ZMod 5) 1 8)) (List.replicate 8 0) ⟨[], []⟩
  have hR : (Fri.mk 2 1 (FriDomain.mk (1 : ZMod 5) 1 8)).num_rounds.1 = 2 := by decide
  refine ⟨_, top, hprove, ?_⟩
  rintro ⟨ds', lc', bs', hds', hbs', heq⟩
  have hfut : (proveQueryRounds top
      (Fri.mk 2 1 (FriDomain.mk (1 : ZMod 5) 1 8)).domain.length
      ((Fri.mk 2 1 (FriDomain.mk (1 : ZMod 5) 1 8)).commit testOracle (RingHom.id (ZMod 5))
        (List.replicate 8 0) ⟨[], []⟩).2.1.dropLast
      (enqueueAuthPairs top (List.replicate 8 0)
        (((Fri.mk 2 1 (FriDomain.mk (1 : ZMod 5) 1 8)).commit testOracle
           (RingHom.id (ZMod 5)) (List.replicate 8 0) ⟨[], []⟩).2.1.headD ([], [])).2
        (((Fri.mk 2 1 (FriDomain.mk (1 : ZMod 5) 1 8)).commit testOracle
           (RingHom.id (ZMod 5)) (List.replicate 8 0) ⟨[], []⟩)).1)).future.length = 7 := by
    rw [proveQueryRounds_eq]
    simp only [enqueueAuthPairs, ProofStream.enqueue, hcs]
    simp only [List.length_append, List.length_map, List.length_cons, List.length_nil,
      proveQueryBundles_length, List.length_dropLast, commit_layers_length]
    rw [hds, hR]
  apply_fun List.length at heq
  rw [hfut] at heq
  simp only [List.length_append, List.length_map, List.length_cons, List.length_nil] at heq
  omega

theorem prove_stream_shape_witness :
    ∃ (s1 : ProofStream (ZMod 5) Nat) (top : List Nat) (ds : List Nat)
      (lc : List (ZMod 5)) (ab : List ((List Nat × Nat) × ZMod 5))
      (bs : List (List ((List Nat × Nat) × ZMod 5))),
      (Fri.mk 2 1 (FriDomain.mk (1 : ZMod 5) 1 8)).prove testOracle
          (RingHom.id (ZMod 5)) (List.replicate 8 0) ⟨[], []⟩ = .ok (s1, top)
        ∧ ds.length = (Fri.mk 2 1 (FriDomain.mk (1 : ZMod 5) 1 8)).num_rounds.1 + 1
        ∧ bs.length = (Fri.mk 2 1 (FriDomain.mk (1 : ZMod 5) 1 8)).num_rounds.1
        ∧ s1.past = (⟨[], []⟩ : ProofStream (ZMod 5) Nat).past
        ∧ s1.future = (⟨[], []⟩ : ProofStream (ZMod 5) Nat).future ++ ds.map Msg.root
            ++ [Msg.codeword lc] ++ [Msg.bundle ab] ++ bs.map Msg.bundle :=
  prove_stream_shape testOracle (RingHom.id (ZMod 5))
    (Fri.mk 2 1 (FriDomain.mk (1 : ZMod 5) 1 8)) (List.replicate 8 0) ⟨[], []⟩
    (by decide) (by decide)

end TranscriptOrder

section FoldRule

variable {K F D : Type} [Field K] [DecidableEq K] [Field F] [DecidableEq F] [DecidableEq D]

/-- C6. Folding rule: in `prove`'s commit phase, for every round `r < R` and
every `i < N_r / 2` (with `N_r = N / 2^r`), the next layer satisfies
`c_{r+1}[i] = 2⁻¹ ((1 + α_r x_i⁻¹) c_r[i] + (1 − α_r x_i⁻¹) c_r[i + N_r/2])`
where `x_i = g_r ω_r^i`, `g_r = g^{2^r}`, `ω_r = ω^{2^r}` (lifted to the
extension field), and `α_r` is the round's Fiat-Shamir challenge (the ghost
output of `Fri.commit`). -/
theorem commit_fold_rule (O : Oracle F D) (lift : K →+* F) (fri : Fri K)
    (codeword : List F) (s : ProofStream F D)
    (hlen : codeword.length = fri.domain.length) :
    ∀ r, r < fri.num_rounds.1 → ∀ i, i < fri.domain.length / 2 ^ (r + 1) →
      ((fri.commit O lift codeword s).2.1.getD (r + 1) ([], [])).1.getD i 0
        = (2 : F)⁻¹
          * ((1 + (fri.commit O lift codeword s).2.2.getD r 0
                * (lift (fri.domain.offset ^ 2 ^ r)
                    * lift (fri.domain.omega ^ 2 ^ r) ^ i)⁻¹)
              * ((fri.commit O lift codeword s).2.1.getD r ([], [])).1.getD i 0
            + (1 - (fri.commit O lift codeword s).2.2.getD r 0
                * (lift (fri.domain.offset ^ 2 ^ r)
                    * lift (fri.domain.omega ^ 2 ^ r) ^ i)⁻¹)
              * ((fri.commit O lift codeword s).2.1.getD r ([], [])).1.getD
                  (i + fri.domain.length / 2 ^ (r + 1)) 0) := by
  intro r hr i hi
  have hcl : (fri.commit O lift codeword s).2.1
      = (codeword, codeword.map O.hashElem)
          :: (commitRounds O lift fri.num_rounds.1 fri.domain.omega fri.domain.offset
            codeword (s.enqueue (Msg.root (O.mtRoot (codeword.map O.hashElem))))).2.1 := rfl
  have hca : (fri.commit O lift codeword s).2.2
      = (commitRounds O lift fri.num_rounds.1 fri.domain.omega fri.domain.offset
          codeword (s.enqueue (Msg.root (O.mtRoot (codeword.map O.hashElem))))).2.2.2 := rfl
  -- the layer below round r+1, as seen by `commitRounds_getD_fold`
  have hprev : ((fri.commit O lift codeword s).2.1.getD r ([], [])).1
      = (if r = 0 then codeword
         else ((commitRounds O lift fri.num_rounds.1 fri.domain.omega fri.domain.offset
             codeword (s.enqueue (Msg.root
               (O.mtRoot (codeword.map O.hashElem))))).2.1.getD (r - 1) ([], [])).1) := by
    rw [hcl]
    cases r with
    | zero => simp
    | succ m => simp only [List.getD_cons_succ, if_neg (Nat.succ_ne_zero m), Nat.succ_sub_one]
  have hprevlen : ((fri.commit O lift codeword s).2.1.getD r ([], [])).1.length
      = fri.domain.length / 2 ^ r := by
    rw [hprev]
    cases r with
    | zero => simpa using hlen
    | succ m =>
      rw [if_neg (Nat.succ_ne_zero m), Nat.succ_sub_one,
        commitRounds_getD_length O lift _ _ _ _ _ m (by omega), hlen]
  have hfold := commitRounds_getD_fold O lift fri.num_rounds.1 fri.domain.omega
    fri.domain.offset codeword
    (s.enqueue (Msg.root (O.mtRoot (codeword.map O.hashElem)))) r hr
  have hmain : ((fri.commit O lift codeword s).2.1.getD (r + 1) ([], [])).1
      = foldCodeword lift ((fri.commit O lift codeword s).2.2.getD r 0)
          (fri.domain.omega ^ 2 ^ r) (fri.domain.offset ^ 2 ^ r)
          ((fri.commit O lift codeword s).2.1.getD r ([], [])).1 := by
    rw [hprev, hcl, List.getD_cons_succ, hca, hfold]
  rw [hmain]
  have hhalf : ((fri.commit O lift codeword s).2.1.getD r ([], [])).1.length / 2
      = fri.domain.length / 2 ^ (r + 1) := by
    rw [hprevlen, Nat.div_div_eq_div_mul, pow_succ]
  rw [foldCodeword_getD lift _ _ _ _ (by rw [hhalf]; exact hi)]
  rw [map_pow, map_pow, hhalf]
  rw [Nat.add_comm (fri.domain.length / 2 ^ (r + 1)) i]

theorem commit_fold_rule_witness :
    ((Fri.mk 2 1 (FriDomain.mk (1 : ZMod 5) 2 4)).commit testOracle (RingHom.id (ZMod 5))
        [1, 1, 1, 1] ⟨[], []⟩).2.1.getD 1 ([], []) |>.1.getD 0 0
      = (2 : ZMod 5)⁻¹
        * ((1 + ((Fri.mk 2 1 (FriDomain.mk (1 : ZMod 5) 2 4)).commit testOracle
              (RingHom.id (ZMod 5)) [1, 1, 1, 1] ⟨[], []⟩).2.2.getD 0 0
              * (RingHom.id (ZMod 5) ((1 : ZMod 5) ^ 2 ^ 0)
                  * RingHom.id (ZMod 5) ((2 : ZMod 5) ^ 2 ^ 0) ^ 0)⁻¹)
            * (((Fri.mk 2 1 (FriDomain.mk (1 : ZMod 5) 2 4)).commit testOracle
                (RingHom.id (ZMod 5)) [1, 1, 1, 1] ⟨[], []⟩).2.1.getD 0 ([], [])).1.getD 0 0
          + (1 - ((Fri.mk 2 1 (FriDomain.mk (1 : ZMod 5) 2 4)).commit testOracle
              (RingHom.id (ZMod 5)) [1, 1, 1, 1] ⟨[], []⟩).2.2.getD 0 0
              * (RingHom.id (ZMod 5) ((1 : ZMod 5) ^ 2 ^ 0)
                  * RingHom.id (ZMod 5) ((2 : ZMod 5) ^ 2 ^ 0) ^ 0)⁻¹)
            * (((Fri.mk 2 1 (FriDomain.mk (1 : ZMod 5) 2 4)).commit testOracle
                (RingHom.id (ZMod 5)) [1, 1, 1, 1] ⟨[], []⟩).2.1.getD 0 ([], [])).1.getD
                (0 + 4 / 2 ^ (0 + 1)) 0) :=
  commit_fold_rule testOracle (RingHom.id (ZMod 5))
    (Fri.mk 2 1 (FriDomain.mk (1 : ZMod 5) 2 4)) [1, 1, 1, 1] ⟨[], []⟩
    (by decide) 0 (by decide) 0 (by decide)

end FoldRule

section RoundTrip

variable {K F : Type} [Field K] [DecidableEq K] [Field F] [DecidableEq F]

/-- A field containing a primitive `2^k`-th root of unity with `k ≥ 1` has
characteristic different from 2. -/
theorem two_ne_zero_of_primitiveRoot {Ω : F} {k : Nat}
    (hΩ : IsPrimitiveRoot Ω (2 ^ k)) (hk : 1 ≤ k) : (2 : F) ≠ 0 := by
  intro h2
  obtain ⟨m, rfl⟩ : ∃ m, k = m + 1 := ⟨k - 1, by omega⟩
  set x := Ω ^ 2 ^ m with hx
  have hx1 : x ≠ 1 :=
    hΩ.pow_ne_one_of_pos_of_lt (by positivity)
      (Nat.pow_lt_pow_right one_lt_two (Nat.lt_succ_self m))
  have hxx : x * x = 1 := by
    rw [hx, ← pow_add]
    have hmm : 2 ^ m + 2 ^ m = 2 ^ (m + 1) := by ring
    rw [hmm, hΩ.pow_eq_one]
  have hsq : (x - 1) * (x - 1) = 0 := by
    have hexp : (x - 1) * (x - 1) = x * x - 2 * x + 1 := by ring
    rw [hexp, hxx, h2]
    ring_nf
    exact h2
  exact hx1 (sub_eq_zero.mp (mul_self_eq_zero.mp hsq))

/-- The order of a power-of-two domain does not vanish in the field. -/
theorem pow_two_card_ne_zero_of_primitiveRoot {Ω : F} {k : Nat}
    (hΩ : IsPrimitiveRoot Ω (2 ^ k)) : ((2 ^ k : Nat) : F) ≠ 0 := by
  cases k with
  | zero => simp
  | succ m =>
    have h2 := two_ne_zero_of_primitiveRoot hΩ (by omega)
    push_cast
    exact pow_ne_zero _ h2

/-- C9. Domain round-trip: over both the base field and the extension field,
interpolation inverts evaluation (as trimmed polynomials, for degree `< N`)
and evaluation inverts interpolation (for length-`N` value vectors). -/
theorem domain_round_trip (d : FriDomain K) (lift : K →+* F) (k : Nat)
    (hN : d.length = 2 ^ k)
    (hω : IsPrimitiveRoot d.omega d.length)
    (hg : d.offset ≠ 0)
    (pB : List K) (hpB : pB.length ≤ d.length)
    (pX : List F) (hpX : pX.length ≤ d.length)
    (vB : List K) (hvB : vB.length = d.length)
    (vX : List F) (hvX : vX.length = d.length) :
    trimPoly (d.b_interpolate (d.b_evaluate pB)) = trimPoly pB
      ∧ trimPoly (d.x_interpolate lift (d.x_evaluate lift pX)) = trimPoly pX
      ∧ d.b_evaluate (d.b_interpolate vB) = vB
      ∧ d.x_evaluate lift (d.x_interpolate lift vX) = vX := by
  have hnK : ((d.length : Nat) : K) ≠ 0 := by
    rw [hN]
    exact pow_two_card_ne_zero_of_primitiveRoot (hN ▸ hω)
  have hωF : IsPrimitiveRoot (lift d.omega) d.length :=
    hω.map_of_injective lift.injective
  have hnF : ((d.length : Nat) : F) ≠ 0 := by
    rw [hN]
    exact pow_two_card_ne_zero_of_primitiveRoot (hN ▸ hωF)
  have hgF : lift d.offset ≠ 0 := fun h => hg (lift.injective (by simpa using h))
  refine ⟨?_, ?_, ?_, ?_⟩
  · exact coset_interp_eval hω hnK hg pB hpB
  · exact coset_interp_eval hωF hnF hgF pX hpX
  · exact coset_eval_interp hω hnK hg vB hvB
  · exact coset_eval_interp hωF hnF hgF vX hvX

theorem domain_round_trip_witness :
    trimPoly ((FriDomain.mk (1 : ZMod 5) 2 4).b_interpolate
        ((FriDomain.mk (1 : ZMod 5) 2 4).b_evaluate [1, 2])) = trimPoly [1, 2]
      ∧ trimPoly ((FriDomain.mk (1 : ZMod 5) 2 4).x_interpolate (RingHom.id (ZMod 5))
          ((FriDomain.mk (1 : ZMod 5) 2 4).x_evaluate (RingHom.id (ZMod 5)) [3]))
          = trimPoly [3]
      ∧ (FriDomain.mk (1 : ZMod 5) 2 4).b_evaluate
          ((FriDomain.mk (1 : ZMod 5) 2 4).b_interpolate [1, 2, 3, 4]) = [1, 2, 3, 4]
      ∧ (FriDomain.mk (1 : ZMod 5) 2 4).x_evaluate (RingHom.id (ZMod 5))
          ((FriDomain.mk (1 : ZMod 5) 2 4).x_interpolate (RingHom.id (ZMod 5)) [0, 1, 2, 3])
          = [0, 1, 2, 3] :=
  domain_round_trip (FriDomain.mk (1 : ZMod 5) 2 4) (RingHom.id (ZMod 5)) 2 rfl
    (by
      apply IsPrimitiveRoot.mk_of_lt
      · decide
      · decide
      · intro l h0 hl
        interval_cases l <;> decide)
    (by decide) [1, 2] (by decide) [3] (by decide) [1, 2, 3, 4] (by decide)
    [0, 1, 2, 3] (by decide)

end RoundTrip

section FinalConsistency

/-- A concrete five-element field on which the kernel can evaluate every field
operation (the `ZMod`/`Rat` inverses are defined through well-founded
recursion, which the kernel cannot reduce; here the inverse is a lookup
table). Used to run `Fri.verify` on an explicit transcript. -/
def GF5 : Type := Fin 5

instance : DecidableEq GF5 := fun a b => instDecidableEqFin 5 a b

instance : Add GF5 := ⟨fun a b => Fin.add a b⟩

instance : Mul GF5 := ⟨fun a b => Fin.mul a b⟩

instance : Neg GF5 := ⟨fun a => (⟨(5 - (a : Fin 5).val) % 5, by omega⟩ : Fin 5)⟩

instance : Zero GF5 := ⟨(⟨0, by omega⟩ : Fin 5)⟩

instance : One GF5 := ⟨(⟨1, by omega⟩ : Fin 5)⟩

instance : Inv GF5 :=
  ⟨fun a => (⟨([0, 1, 3, 2, 4].getD (a : Fin 5).val 0) % 5,
      Nat.mod_lt _ (by omega)⟩ : Fin 5)⟩

instance : Fintype GF5 := inferInstanceAs (Fintype (Fin 5))

instance : Field GF5 :=
  Field.ofMinimalAxioms GF5 (by decide) (by decide) (by decide) (by decide)
    (by decide) (by decide) (by decide) (by decide) (by decide)
    ⟨(0 : GF5), 1, by decide⟩

/-- A concrete oracle over `F = GF5`, `D = Nat`. -/
def gf5Oracle : Oracle GF5 Nat where
  hashElem := fun x => (x : Fin 5).val + 1
  hashPair := fun d c => d + c
  sampleIndexNPT := fun d n => d % n
  sampleIndexBit := fun d => d % 2 == 0
  sample := fun d => (⟨d % 5, by omega⟩ : Fin 5)
  mtRoot := fun l => l.foldl (fun acc a => acc * 31 + a) 7
  fs := fun msgs => msgs.length

/-- C2 (code-bug evidence). `Fri::verify` performs **no** final consistency
check: `NotColinear` is never constructed anywhere in `fri.rs`, and after the
query loop the folded `a_vals` are silently discarded instead of being compared
with the received last codeword at the derived indices.

Concrete failing input (`N = 4`, `ρ = 2`, `q = 1`, one round, `B = X = GF5`,
`ω = 2`, `g = 1`): the transcript commits layer 0 honestly to the all-ones
codeword (leaf digests `[2,2,2,2]`, opened at the sampled index `1` and its
sibling `3`), but sends the all-zeros vector `[0,0]` as last codeword together
with its own consistent Merkle root (`mtRoot [1,1]`), so the
`BadMerkleRootForLastCodeword` and low-degree checks pass. Every Merkle
authentication succeeds, yet the verifier's folded value at the final index —
`getColinearY` of the two openings at the round challenge, which equals `1` —
differs from the last-codeword entry `0` at the derived index `1 % 2`, and
`verify` still returns `Ok` with the two layer-0 openings. The spec requires
`Err(NotColinear(r))` here. -/
theorem verify_accepts_inconsistent_final_fold :
    (Fri.mk 2 1 (FriDomain.mk (1 : GF5) 2 4)).verify gf5Oracle (RingHom.id GF5)
        ⟨[], [Msg.root (gf5Oracle.mtRoot [2, 2, 2, 2]),
              Msg.root (gf5Oracle.mtRoot [1, 1]),
              Msg.codeword [0, 0],
              Msg.bundle [(([2, 2, 2, 2], 1), 1)],
              Msg.bundle [(([2, 2, 2, 2], 3), 1)]]⟩
      = .ok (⟨[Msg.root (gf5Oracle.mtRoot [2, 2, 2, 2]),
               Msg.root (gf5Oracle.mtRoot [1, 1]),
               Msg.codeword [0, 0],
               Msg.bundle [(([2, 2, 2, 2], 1), 1)],
               Msg.bundle [(([2, 2, 2, 2], 3), 1)]], []⟩,
             [(1, 1), (3, 1)])
    ∧ getColinearY
        (RingHom.id GF5
          ((Fri.mk 2 1 (FriDomain.mk (1 : GF5) 2 4)).get_evaluation_argument 1 0), 1)
        (RingHom.id GF5
          ((Fri.mk 2 1 (FriDomain.mk (1 : GF5) 2 4)).get_evaluation_argument 3 0), 1)
        (gf5Oracle.sample (gf5Oracle.fs [Msg.root (gf5Oracle.mtRoot [2, 2, 2, 2])]))
      ≠ [(0 : GF5), 0].getD (1 % 2) 0 := by
  constructor
  · rfl
  · decide

end FinalConsistency

section CompletenessInfra

variable {K F D : Type} [Field K] [DecidableEq K] [Field F] [DecidableEq F] [DecidableEq D]

theorem resizeList_length (n : Nat) (l : List F) : (resizeList n l).length = n := by
  simp [resizeList]
  omega

theorem getD_map_of_lt {α β : Type} (f : α → β) (d : β) (d' : α) {l : List α} {j : Nat}
    (hj : j < l.length) : (l.map f).getD j d = f (l.getD j d') := by
  rw [List.getD_eq_getElem _ _ (by simpa using hj), List.getD_eq_getElem _ _ hj]
  simp

theorem getLastD_eq_getD {α : Type} : ∀ (l : List α) (d : α),
    l.getLastD d = l.getD (l.length - 1) d := by
  intro l
  induction l with
  | nil => intro d; rfl
  | cons a t ih =>
    intro d
    cases t with
    | nil => rfl
    | cons b u =>
      rw [List.getLastD_cons, ih]
      simp

theorem getD_dropLast {α : Type} (l : List α) (d : α) {j : Nat} (hj : j < l.length - 1) :
    l.dropLast.getD j d = l.getD j d := by
  rw [List.getD_eq_getElem _ _ (by simp; omega), List.getD_eq_getElem _ _ (by omega)]
  exact List.getElem_dropLast l j _

theorem iterSquare_eq (x : K) : ∀ n, iterSquare x n = x ^ 2 ^ n := by
  intro n
  induction n generalizing x with
  | zero => simp [iterSquare]
  | succ m ih =>
    rw [iterSquare, ih (x * x), ← pow_two, ← pow_mul, pow_succ, mul_comm (2 ^ m) 2]

theorem length_flatMap_pairs {α β : Type} (f g : α → β) :
    ∀ l : List α, (l.flatMap fun x => [f x, g x]).length = 2 * l.length := by
  intro l
  induction l with
  | nil => rfl
  | cons a t ih =>
    simp only [List.flatMap_cons, List.length_append, List.length_cons, List.length_nil, ih]
    omega

/-- `num_rounds` as an explicit pair (shared unfolding helper). -/
theorem num_rounds_eq (fri : Fri K) :
    fri.num_rounds =
      (if fri.expansion_factor < fri.colinearity_checks_count then
        (log2Ceil (fri.domain.length / fri.expansion_factor - 1 + 1)
           - log2Ceil ((fri.colinearity_checks_count + fri.expansion_factor - 1)
               / fri.expansion_factor),
         2 ^ log2Ceil ((fri.colinearity_checks_count + fri.expansion_factor - 1)
               / fri.expansion_factor) - 1)
      else
        (log2Ceil (fri.domain.length / fri.expansion_factor - 1 + 1), 0)) := by
  by_cases h : fri.expansion_factor < fri.colinearity_checks_count
  · simp [Fri.num_rounds, h]
  · simp [Fri.num_rounds, h]

/-- Characterization of `num_rounds` for valid power-of-two parameters:
`R ≤ k − e` and `δ = 2^(k−e−R) − 1`. -/
theorem num_rounds_char (fri : Fri K) (k e : Nat)
    (hN : fri.domain.length = 2 ^ k) (hρ : fri.expansion_factor = 2 ^ e)
    (hek : e ≤ k)
    (hqN : fri.colinearity_checks_count ≤ fri.domain.length) :
    fri.num_rounds.1 ≤ k - e
      ∧ fri.num_rounds.2 = 2 ^ (k - e - fri.num_rounds.1) - 1 := by
  have h1e : 1 ≤ (2 : Nat) ^ e := Nat.one_le_two_pow
  have h1ke : 1 ≤ (2 : Nat) ^ (k - e) := Nat.one_le_two_pow
  have hmd : fri.domain.length / fri.expansion_factor - 1 + 1 = 2 ^ (k - e) := by
    rw [hN, hρ, Nat.pow_div hek (by norm_num)]
    omega
  rw [num_rounds_eq]
  by_cases h : fri.expansion_factor < fri.colinearity_checks_count
  · rw [if_pos h]
    have hke : (2 : Nat) ^ (k - e) * 2 ^ e = 2 ^ k := by
      rw [← pow_add]
      congr 1
      omega
    have hceil : (fri.colinearity_checks_count + fri.expansion_factor - 1)
        / fri.expansion_factor ≤ 2 ^ (k - e) := by
      have h1 : fri.colinearity_checks_count + fri.expansion_factor - 1
          ≤ 2 ^ k + fri.expansion_factor - 1 := by
        have hq := hqN
        rw [hN] at hq
        have h2ρ : 1 ≤ fri.expansion_factor := by rw [hρ]; omega
        omega
      have h2 : (2 ^ k + fri.expansion_factor - 1) / fri.expansion_factor
          = 2 ^ (k - e) := by
        rw [hρ]
        have hsplit : 2 ^ k + 2 ^ e - 1 = (2 ^ e - 1) + 2 ^ (k - e) * 2 ^ e := by
          omega
        rw [hsplit, Nat.add_mul_div_right _ _ (by positivity),
          Nat.div_eq_of_lt (by omega), zero_add]
      calc (fri.colinearity_checks_count + fri.expansion_factor - 1)
            / fri.expansion_factor
          ≤ (2 ^ k + fri.expansion_factor - 1) / fri.expansion_factor :=
            Nat.div_le_div_right h1
        _ = 2 ^ (k - e) := h2
    have hmissed : log2Ceil ((fri.colinearity_checks_count + fri.expansion_factor - 1)
        / fri.expansion_factor) ≤ k - e := by
      rw [log2Ceil_eq_clog]
      calc Nat.clog 2 ((fri.colinearity_checks_count + fri.expansion_factor - 1)
            / fri.expansion_factor)
          ≤ Nat.clog 2 (2 ^ (k - e)) := Nat.clog_mono_right 2 hceil
        _ = k - e := Nat.clog_pow 2 _ (by norm_num)
    rw [hmd, log2Ceil_pow]
    constructor
    · simp only []
      omega
    · simp only []
      congr 2
      omega
  · rw [if_neg h, hmd, log2Ceil_pow]
    constructor
    · simp only []
      omega
    · simp only []
      have : k - e - (k - e) = 0 := by omega
      rw [this]
      simp

/-- In a field, a primitive `2^(m+1)`-th root of unity raised to `2^m`
is `−1`. -/
theorem primitiveRoot_pow_half {Ω : F} {m : Nat}
    (hΩ : IsPrimitiveRoot Ω (2 ^ (m + 1))) : Ω ^ 2 ^ m = -1 := by
  have hx1 : Ω ^ 2 ^ m ≠ 1 :=
    hΩ.pow_ne_one_of_pos_of_lt (by positivity)
      (Nat.pow_lt_pow_right one_lt_two (Nat.lt_succ_self m))
  have hxx : Ω ^ 2 ^ m * Ω ^ 2 ^ m = 1 := by
    rw [← pow_add]
    have hmm : 2 ^ m + 2 ^ m = 2 ^ (m + 1) := by ring
    rw [hmm, hΩ.pow_eq_one]
  rcases mul_self_eq_one_iff.mp hxx with h | h
  · exact absurd h hx1
  · exact h

theorem foldPoly_length_le (alpha : F) (P : List F) (b : Nat)
    (hb : P.length ≤ 2 ^ (b + 1)) :
    (addPoly (evenCoeffs P) (smulPoly alpha (oddCoeffs P))).length ≤ 2 ^ b := by
  rw [addPoly_length, smulPoly_length, evenCoeffs_length, oddCoeffs_length]
  have h2 : (2 : Nat) ^ (b + 1) = 2 * 2 ^ b := by ring
  omega

/-- One fold of an evaluation vector is the evaluation of
`even + α · odd` on the squared coset. -/
theorem foldCodeword_poly (lift : K →+* F) (alpha : F) (gen off : K)
    (cw : List F) (P : List F) (m : Nat)
    (hn : cw.length = 2 ^ (m + 1))
    (hΩ : IsPrimitiveRoot (lift gen) (2 ^ (m + 1)))
    (hG : lift off ≠ 0)
    (h2 : (2 : F) ≠ 0)
    (hev : ∀ i < 2 ^ (m + 1), cw.getD i 0 = polyEval P (lift off * lift gen ^ i)) :
    ∀ i < 2 ^ m,
      (foldCodeword lift alpha gen off cw).getD i 0
        = polyEval (addPoly (evenCoeffs P) (smulPoly alpha (oddCoeffs P)))
            (lift (off * off) * lift (gen * gen) ^ i) := by
  intro i hi
  have hΩ0 : lift gen ≠ 0 := hΩ.ne_zero (by positivity)
  have hhalf : cw.length / 2 = 2 ^ m := by
    rw [hn, pow_succ, Nat.mul_div_cancel _ (by norm_num)]
  set x := lift off * lift gen ^ i with hxdef
  have hx0 : x ≠ 0 := mul_ne_zero hG (pow_ne_zero _ hΩ0)
  have hsib : cw.getD (cw.length / 2 + i) 0 = polyEval P (-x) := by
    rw [hev (cw.length / 2 + i) (by omega), hhalf]
    have harg : lift off * lift gen ^ (2 ^ m + i) = -x := by
      rw [pow_add, primitiveRoot_pow_half hΩ, hxdef]
      ring
    rw [harg]
  have hself : cw.getD i 0 = polyEval P x := hev i (by
    have : (2 : Nat) ^ m < 2 ^ (m + 1) :=
      Nat.pow_lt_pow_right one_lt_two (Nat.lt_succ_self m)
    omega)
  rw [foldCodeword_getD lift alpha gen off cw (by omega),
    ← hxdef, hself, hsib]
  have hsq : lift (off * off) * lift (gen * gen) ^ i = x * x := by
    rw [map_mul, map_mul, hxdef]
    ring
  rw [hsq, addPoly_eval, smulPoly_eval,
    even_odd_eval P x, even_odd_eval P (-x)]
  have hnegsq : -x * -x = x * x := by ring
  rw [hnegsq]
  field_simp
  ring

/-- Invariant of the commit rounds: starting from the evaluations of a
polynomial `P` of length `≤ 2^b` on a coset of size `2^a`, after `rounds`
folds the final codeword is the evaluation vector of some polynomial of
length `≤ 2^(b−rounds)` on the `2^rounds`-th power coset. -/
theorem commitRounds_final_poly (O : Oracle F D) (lift : K →+* F) :
    ∀ (rounds : Nat) (gen off : K) (cw : List F) (s : ProofStream F D)
      (a b : Nat) (P : List F),
      (2 : F) ≠ 0 →
      IsPrimitiveRoot (lift gen) (2 ^ a) →
      lift off ≠ 0 →
      cw.length = 2 ^ a →
      rounds ≤ a → rounds ≤ b →
      P.length ≤ 2 ^ b →
      (∀ i < 2 ^ a, cw.getD i 0 = polyEval P (lift off * lift gen ^ i)) →
      ∃ Q : List F,
        Q.length ≤ 2 ^ (b - rounds)
          ∧ (commitRounds O lift rounds gen off cw s).2.2.1.length = 2 ^ (a - rounds)
          ∧ ∀ i < 2 ^ (a - rounds),
              (commitRounds O lift rounds gen off cw s).2.2.1.getD i 0
                = polyEval Q (lift off ^ 2 ^ rounds * (lift gen ^ 2 ^ rounds) ^ i) := by
  intro rounds
  induction rounds with
  | zero =>
    intro gen off cw s a b P h2 hΩ hG hlen hra hrb hP hev
    refine ⟨P, by simpa using hP, by simpa using hlen, ?_⟩
    intro i hi
    simp only [commitRounds, pow_zero, pow_one, Nat.sub_zero] at *
    exact hev i hi
  | succ r ih =>
    intro gen off cw s a b P h2 hΩ hG hlen hra hrb hP hev
    obtain ⟨a', rfl⟩ : ∃ a', a = a' + 1 := ⟨a - 1, by omega⟩
    obtain ⟨b', rfl⟩ : ∃ b', b = b' + 1 := ⟨b - 1, by omega⟩
    set alpha := O.sample (proverFS O s) with halpha
    have hfold := foldCodeword_poly lift alpha gen off cw P a' hlen hΩ hG h2 hev
    have hΩ2 : IsPrimitiveRoot (lift (gen * gen)) (2 ^ a') := by
      have hpow := IsPrimitiveRoot.pow (n := 2 ^ (a' + 1)) (a := 2) (b := 2 ^ a')
        (by positivity) hΩ (pow_succ' 2 a')
      have hmm : lift (gen * gen) = lift gen ^ 2 := by
        rw [map_mul, pow_two]
      rw [hmm]
      exact hpow
    have hG2 : lift (off * off) ≠ 0 := by
      rw [map_mul]
      exact mul_ne_zero hG hG
    have hlen2 : (foldCodeword lift alpha gen off cw).length = 2 ^ a' := by
      rw [foldCodeword_length, hlen, pow_succ, Nat.mul_div_cancel _ (by norm_num)]
    have hP2 : (addPoly (evenCoeffs P) (smulPoly alpha (oddCoeffs P))).length ≤ 2 ^ b' :=
      foldPoly_length_le alpha P b' hP
    obtain ⟨Q, hQlen, hQfinal, hQev⟩ := ih (gen * gen) (off * off)
      (foldCodeword lift alpha gen off cw)
      (s.enqueue (Msg.root (O.mtRoot
        ((foldCodeword lift alpha gen off cw).map O.hashElem))))
      a' b' (addPoly (evenCoeffs P) (smulPoly alpha (oddCoeffs P)))
      h2 hΩ2 hG2 hlen2 (by omega) (by omega) hP2 hfold
    refine ⟨Q, ?_, ?_, ?_⟩
    · have heq : b' + 1 - (r + 1) = b' - r := by omega
      rw [heq]
      exact hQlen
    · have heq : a' + 1 - (r + 1) = a' - r := by omega
      rw [heq]
      exact hQfinal
    · intro i hi
      have hi' : i < 2 ^ (a' - r) := by
        have heq : a' + 1 - (r + 1) = a' - r := by omega
        rwa [heq] at hi
      have := hQev i hi'
      have hoffpow : lift (off * off) ^ 2 ^ r = lift off ^ 2 ^ (r + 1) := by
        rw [map_mul, ← pow_two, ← pow_mul, pow_succ, mul_comm (2 ^ r) 2]
      have hgenpow : lift (gen * gen) ^ 2 ^ r = lift gen ^ 2 ^ (r + 1) := by
        rw [map_mul, ← pow_two, ← pow_mul, pow_succ, mul_comm (2 ^ r) 2]
      rw [hoffpow, hgenpow] at this
      exact this

/-- The roots enqueued by the commit rounds are exactly the Merkle roots of the
produced layers' digest lists, in order. -/
theorem commitRounds_stream_roots (O : Oracle F D) (lift : K →+* F) :
    ∀ (rounds : Nat) (gen off : K) (cw : List F) (s : ProofStream F D),
      (commitRounds O lift rounds gen off cw s).1
        = ⟨s.past, s.future
            ++ ((commitRounds O lift rounds gen off cw s).2.1.map
                (fun l => O.mtRoot l.2)).map Msg.root⟩ := by
  intro rounds
  induction rounds with
  | zero =>
    intro gen off cw s
    cases s
    simp [commitRounds]
  | succ n ih =>
    intro gen off cw s
    simp only [commitRounds, List.map_cons]
    rw [ih]
    simp [ProofStream.enqueue]

/-- Each layer produced by the commit rounds stores the digests of its own
codeword. -/
theorem commitRounds_getD_digests (O : Oracle F D) (lift : K →+* F) :
    ∀ (rounds : Nat) (gen off : K) (cw : List F) (s : ProofStream F D) (j : Nat),
      j < rounds →
      ((commitRounds O lift rounds gen off cw s).2.1.getD j ([], [])).2
        = ((commitRounds O lift rounds gen off cw s).2.1.getD j ([], [])).1.map
            O.hashElem := by
  intro rounds
  induction rounds with
  | zero => intro gen off cw s j hj; omega
  | succ n ih =>
    intro gen off cw s j hj
    simp only [commitRounds]
    cases j with
    | zero => simp
    | succ m =>
      simp only [List.getD_cons_succ]
      exact ih _ _ _ _ m (by omega)

/-- The challenge values the verifier derives while reading the roots:
`α_r = sample (fs (messages read so far))`. -/
def alphasFor (O : Oracle F D) : List (Msg F D) → List D → List F
  | _, [] => []
  | past, d :: ds => O.sample (O.fs past) :: alphasFor O (past ++ [Msg.root d]) ds

theorem extractRoots_ok (O : Oracle F D) :
    ∀ (ds : List D) (past rest : List (Msg F D)),
      extractRoots O ds.length ⟨past, ds.map Msg.root ++ rest⟩
        = .ok (ds, alphasFor O past ds, ⟨past ++ ds.map Msg.root, rest⟩) := by
  intro ds
  induction ds with
  | nil =>
    intro past rest
    simp [extractRoots, alphasFor]
  | cons d ds ih =>
    intro past rest
    simp only [List.length_cons, List.map_cons, List.cons_append]
    rw [extractRoots]
    simp only [ProofStream.dequeueRoot, verifierFS]
    rw [ih (past ++ [Msg.root d]) rest]
    simp [alphasFor]

theorem verifyAuthStructure_authPairs (O : Oracle F D) (root : D) :
    ∀ (idxs : List Nat) (cw : List F),
      (∀ i ∈ idxs, i < cw.length) →
      O.mtRoot (cw.map O.hashElem) = root →
      verifyAuthStructure O root idxs
        (((authPairs (cw.map O.hashElem) idxs cw).map (fun p => p.1)).zip
          (((authPairs (cw.map O.hashElem) idxs cw).map (fun p => p.2)).map O.hashElem))
        = true := by
  intro idxs
  induction idxs with
  | nil =>
    intro cw hb hroot
    rfl
  | cons i t ih =>
    intro cw hb hroot
    have hi : i < cw.length := hb i (List.mem_cons_self i t)
    have hrest := ih cw (fun x hx => hb x (List.mem_cons_of_mem _ hx)) hroot
    simp only [verifyAuthStructure, authPairs, List.map_cons, List.zip_cons_cons,
      List.all_cons, Bool.and_eq_true, decide_eq_true_eq, List.length_cons,
      List.length_zip, List.length_map] at hrest ⊢
    obtain ⟨hlen', hall'⟩ := hrest
    refine ⟨by omega, ⟨⟨hroot, trivial⟩, ?_⟩, hall'⟩
    rw [List.get?_eq_getElem?, List.getElem?_map, List.getElem?_eq_getElem hi,
      List.getD_eq_getElem _ _ hi]
    rfl

theorem dequeueAndAuthenticate_ok (O : Oracle F D) (idxs : List Nat) (cw : List F)
    (root : D) (past rest : List (Msg F D))
    (hroot : O.mtRoot (cw.map O.hashElem) = root)
    (hb : ∀ i ∈ idxs, i < cw.length) :
    dequeueAndAuthenticate O idxs root
        ⟨past, Msg.bundle (authPairs (cw.map O.hashElem) idxs cw) :: rest⟩
      = .ok (idxs.map (fun i => cw.getD i 0),
             ⟨past ++ [Msg.bundle (authPairs (cw.map O.hashElem) idxs cw)], rest⟩) := by
  rw [dequeueAndAuthenticate]
  simp only [ProofStream.dequeueBundle]
  rw [if_pos (verifyAuthStructure_authPairs O root idxs cw hb hroot)]
  simp only [authPairs, List.map_map]
  rfl

/-- The verifier's query loop succeeds on the stream produced by the prover's
query loop, leaving the accumulated evaluations untouched (for rounds `r ≥ 1`,
where nothing is recorded). -/
theorem verifyQueryRounds_ok (O : Oracle F D) (lift : K →+* F) (fri : Fri K)
    (roots : List D) (alphas : List F) :
    ∀ (layers : List (List F × List D)) (r : Nat) (aIdx bIdx : List Nat)
      (aVals : List F) (len : Nat) (acc : List (Nat × F))
      (past rest : List (Msg F D)),
      1 ≤ r →
      (∀ j, j < layers.length →
        (layers.getD j ([], [])).2 = (layers.getD j ([], [])).1.map O.hashElem) →
      (∀ j, j < layers.length →
        roots.getD (r + j) (O.mtRoot []) = O.mtRoot (layers.getD j ([], [])).2) →
      (∀ j, j < layers.length → (layers.getD j ([], [])).1.length = len / 2 ^ j) →
      (∀ j, j < layers.length → 0 < len / 2 ^ j) →
      verifyQueryRounds O lift fri roots alphas r layers.length aIdx aVals bIdx len acc
          ⟨past, (proveQueryBundles bIdx len layers).map Msg.bundle ++ rest⟩
        = .ok (⟨past ++ (proveQueryBundles bIdx len layers).map Msg.bundle, rest⟩, acc) := by
  intro layers
  induction layers with
  | nil =>
    intro r aIdx bIdx aVals len acc past rest hr hdig hroot hlen hpos
    simp [verifyQueryRounds, proveQueryBundles]
  | cons layer restL ih =>
    intro r aIdx bIdx aVals len acc past rest hr hdig hroot hlen hpos
    have hd0 : layer.2 = layer.1.map O.hashElem := hdig 0 (by simp)
    have hr0 : roots.getD r (O.mtRoot []) = O.mtRoot layer.2 := by
      have := hroot 0 (by simp)
      simpa using this
    have hl0 : layer.1.length = len := by
      have := hlen 0 (by simp)
      simpa using this
    have hp0 : 0 < len := by
      have := hpos 0 (by simp)
      simpa using this
    have hbmem : ∀ x ∈ bIdx.map (fun x => (x + len / 2) % len), x < layer.1.length := by
      intro x hx
      rw [List.mem_map] at hx
      obtain ⟨y, _, rfl⟩ := hx
      rw [hl0]
      exact Nat.mod_lt _ hp0
    have hDA := dequeueAndAuthenticate_ok O
      (bIdx.map (fun x => (x + len / 2) % len)) layer.1
      (roots.getD r (O.mtRoot [])) past
      ((proveQueryBundles (bIdx.map (fun x => (x + len / 2) % len)) (len / 2)
        restL).map Msg.bundle ++ rest)
      (by rw [hr0, hd0]) hbmem
    simp only [List.length_cons]
    rw [verifyQueryRounds]
    simp only [proveQueryBundles, List.map_cons, List.cons_append]
    rw [hd0, hDA]
    dsimp only
    rw [if_neg (by omega : ¬ r = 0)]
    have hstep := ih (r + 1)
      (aIdx.map (· % (len / 2)))
      (bIdx.map (fun x => (x + len / 2) % len))
      ((List.range fri.colinearity_checks_count).map fun i =>
        getColinearY
          (lift (fri.get_evaluation_argument (aIdx.getD i 0) r), aVals.getD i 0)
          (lift (fri.get_evaluation_argument
            ((bIdx.map (fun x => (x + len / 2) % len)).getD i 0) r),
           ((bIdx.map (fun x => (x + len / 2) % len)).map
             (fun i => layer.1.getD i 0)).getD i 0)
          (alphas.getD r 0))
      (len / 2) acc
      (past ++ [Msg.bundle (authPairs (layer.1.map O.hashElem)
        (bIdx.map (fun x => (x + len / 2) % len)) layer.1)])
      rest (by omega)
      (fun j hj => by
        have := hdig (j + 1) (by simpa using Nat.succ_lt_succ hj)
        simpa using this)
      (fun j hj => by
        have := hroot (j + 1) (by simpa using Nat.succ_lt_succ hj)
        have harith : r + (j + 1) = r + 1 + j := by omega
        rw [harith] at this
        simpa using this)
      (fun j hj => by
        have := hlen (j + 1) (by simpa using Nat.succ_lt_succ hj)
        simp only [List.getD_cons_succ] at this
        rw [this, Nat.div_div_eq_div_mul, pow_succ']
      )
      (fun j hj => by
        have := hpos (j + 1) (by simpa using Nat.succ_lt_succ hj)
        rw [Nat.div_div_eq_div_mul, ← pow_succ']
        exact this)
    rw [hstep]
    simp

/-- Dequeuing a root from a stream whose next message is a root. -/
theorem dequeueRoot_cons (past : List (Msg F D)) (d : D) (rest : List (Msg F D)) :
    (⟨past, Msg.root d :: rest⟩ : ProofStream F D).dequeueRoot
      = .ok (d, ⟨past ++ [Msg.root d], rest⟩) := rfl

/-- Dequeuing a codeword from a stream whose next message is a codeword. -/
theorem dequeueCodeword_cons (past : List (Msg F D)) (c : List F)
    (rest : List (Msg F D)) :
    (⟨past, Msg.codeword c :: rest⟩ : ProofStream F D).dequeueCodeword
      = .ok (c, ⟨past ++ [Msg.codeword c], rest⟩) := rfl

/-- `verifyQueryRounds_ok` specialised to an exactly-consumed stream. -/
theorem verifyQueryRounds_closed (O : Oracle F D) (lift : K →+* F) (fri : Fri K)
    (roots : List D) (alphas : List F) (layers : List (List F × List D)) (r : Nat)
    (aIdx bIdx : List Nat) (aVals : List F) (len : Nat) (acc : List (Nat × F))
    (past : List (Msg F D))
    (hr : 1 ≤ r)
    (hdig : ∀ j, j < layers.length →
      (layers.getD j ([], [])).2 = (layers.getD j ([], [])).1.map O.hashElem)
    (hroot : ∀ j, j < layers.length →
      roots.getD (r + j) (O.mtRoot []) = O.mtRoot (layers.getD j ([], [])).2)
    (hlen : ∀ j, j < layers.length → (layers.getD j ([], [])).1.length = len / 2 ^ j)
    (hpos : ∀ j, j < layers.length → 0 < len / 2 ^ j) :
    verifyQueryRounds O lift fri roots alphas r layers.length aIdx aVals bIdx len acc
        ⟨past, (proveQueryBundles bIdx len layers).map Msg.bundle⟩
      = .ok (⟨past ++ (proveQueryBundles bIdx len layers).map Msg.bundle, []⟩, acc) := by
  have h := verifyQueryRounds_ok O lift fri roots alphas layers r aIdx bIdx aVals len acc
    past [] hr hdig hroot hlen hpos
  rwa [List.append_nil] at h

/-- C1. Completeness: for a valid FRI instance (power-of-two domain of size
`2^k` with a primitive root of that order, power-of-two expansion factor
`2^e` with `1 ≤ e ≤ k`, a nonzero coset offset, at least one query, the query
count within the last-layer length, and at least one round — the spec labels
`R ≤ 0` configurations `NonPositiveRoundCount`) and any polynomial `p` of
degree `≤ N/ρ − 1` over the extension field, proving on `x_evaluate p` and
verifying the resulting transcript returns `Ok` with exactly `2q`
`(index, value)` pairs, each value being `p` at the lift of the corresponding
domain point. -/
theorem fri_completeness (O : Oracle F D) (lift : K →+* F) (fri : Fri K)
    (hNPT : ∀ d n, 0 < n → O.sampleIndexNPT d n < n)
    (k e : Nat)
    (hN : fri.domain.length = 2 ^ k)
    (hρ : fri.expansion_factor = 2 ^ e)
    (he : 1 ≤ e) (hek : e ≤ k)
    (hq1 : 1 ≤ fri.colinearity_checks_count)
    (hqL : fri.colinearity_checks_count ≤ fri.domain.length >>> fri.num_rounds.1)
    (hR : 1 ≤ fri.num_rounds.1)
    (hω : IsPrimitiveRoot fri.domain.omega (2 ^ k))
    (hg : fri.domain.offset ≠ 0)
    (p : List F) (hp : p.length ≤ 2 ^ (k - e)) :
    ∃ (s1 : ProofStream F D) (top : List Nat) (s2 : ProofStream F D)
      (evals : List (Nat × F)),
      fri.prove O lift (fri.domain.x_evaluate lift p) ⟨[], []⟩ = .ok (s1, top)
        ∧ fri.verify O lift s1 = .ok (s2, evals)
        ∧ evals.length = 2 * fri.colinearity_checks_count
        ∧ ∀ pr ∈ evals, pr.2 = polyEval p (lift (fri.domain.b_domain_value pr.1)) := by
  -- ambient abbreviations and basic facts
  set codeword := fri.domain.x_evaluate lift p with hcwdef
  have hk1 : 1 ≤ k := le_trans he hek
  have hΩF : IsPrimitiveRoot (lift fri.domain.omega) (2 ^ k) :=
    hω.map_of_injective lift.injective
  have h2 : (2 : F) ≠ 0 := two_ne_zero_of_primitiveRoot hΩF hk1
  have hGF : lift fri.domain.offset ≠ 0 :=
    fun h => hg (lift.injective (by simpa using h))
  have hpN : p.length ≤ fri.domain.length := by
    rw [hN]
    exact le_trans hp (Nat.pow_le_pow_right (by norm_num) (by omega))
  have hcwlen : codeword.length = fri.domain.length := by
    rw [hcwdef, FriDomain.x_evaluate, nttL_length, resizeList_length]
  have hcw : ∀ i < 2 ^ k,
      codeword.getD i 0
        = polyEval p (lift fri.domain.offset * lift fri.domain.omega ^ i) := by
    intro i hi
    rw [hcwdef, FriDomain.x_evaluate]
    exact coset_evaluate_getD p hpN (by rw [hN]; exact hi)
  have hqN : fri.colinearity_checks_count ≤ fri.domain.length := by
    refine le_trans hqL ?_
    rw [Nat.shiftRight_eq_div_pow]
    exact Nat.div_le_self _ _
  obtain ⟨hRk, hδ⟩ := num_rounds_char fri k e hN hρ hek hqN
  have hRklt : fri.num_rounds.1 ≤ k := by omega
  have hLshift : fri.domain.length >>> fri.num_rounds.1 = 2 ^ (k - fri.num_rounds.1) := by
    rw [Nat.shiftRight_eq_div_pow, hN, Nat.pow_div hRklt (by norm_num)]
  -- the prover run
  obtain ⟨top, hsome, hprove⟩ :=
    prove_eq_of_valid O lift fri codeword ⟨[], []⟩ hcwlen.symm hqL
  -- the raw commit round data
  have hcommit1 : (fri.commit O lift codeword ⟨[], []⟩).1
      = (commitRounds O lift fri.num_rounds.1 fri.domain.omega fri.domain.offset
          codeword ((⟨[], []⟩ : ProofStream F D).enqueue
            (Msg.root (O.mtRoot (codeword.map O.hashElem))))).1.enqueue
          (Msg.codeword (commitRounds O lift fri.num_rounds.1 fri.domain.omega
            fri.domain.offset codeword ((⟨[], []⟩ : ProofStream F D).enqueue
              (Msg.root (O.mtRoot (codeword.map O.hashElem))))).2.2.1) := rfl
  have hcommitl : (fri.commit O lift codeword ⟨[], []⟩).2.1
      = (codeword, codeword.map O.hashElem)
          :: (commitRounds O lift fri.num_rounds.1 fri.domain.omega fri.domain.offset
            codeword ((⟨[], []⟩ : ProofStream F D).enqueue
              (Msg.root (O.mtRoot (codeword.map O.hashElem))))).2.1 := rfl
  set sc := (⟨[], []⟩ : ProofStream F D).enqueue
    (Msg.root (O.mtRoot (codeword.map O.hashElem))) with hscdef
  set rc := commitRounds O lift fri.num_rounds.1 fri.domain.omega fri.domain.offset
    codeword sc with hrcdef
  set lastCw := rc.2.2.1 with hlastdef
  set r0 := O.mtRoot (codeword.map O.hashElem) with hr0def
  set rs := rc.2.1.map (fun l => O.mtRoot l.2) with hrsdef
  have hrsLen : rs.length = fri.num_rounds.1 := by
    rw [hrsdef, List.length_map, hrcdef, commitRounds_layers_length]
  have hrclen : rc.2.1.length = fri.num_rounds.1 := by
    rw [hrcdef, commitRounds_layers_length]
  -- the polynomial left after all the folds
  obtain ⟨Q, hQlen, hlastlen, hlastev⟩ :=
    commitRounds_final_poly O lift fri.num_rounds.1 fri.domain.omega fri.domain.offset
      codeword sc k (k - e) p h2 hΩF hGF (by rw [hcwlen, hN]) hRklt hRk hp
      (fun i hi => hcw i hi)
  -- the sampled top indices: definition, length and bound
  have hsome0 := hsome
  rw [Fri.sample_indices, if_pos hqL] at hsome
  have htopdef := Option.some.inj hsome
  obtain ⟨hlastq, hlastnodup, hlastmem⟩ :=
    sampleLastIndices_spec O (proverFS O (fri.commit O lift codeword ⟨[], []⟩).1) hNPT
      fri.colinearity_checks_count
      (List.range (fri.domain.length >>> fri.num_rounds.1)) 0
      (List.nodup_range _) (by simpa using hqL)
  have htoplen : top.length = fri.colinearity_checks_count := by
    rw [← htopdef, liftAllIndices_length, hlastq]
  have htopb : ∀ x ∈ top, x < codeword.length := by
    intro x hx
    rw [← htopdef] at hx
    have hin := liftAllIndices_mem_lt O
      (proverFS O (fri.commit O lift codeword ⟨[], []⟩).1)
      (fri.num_rounds.1 - 1) (fri.domain.length >>> fri.num_rounds.1) _ _
      (fun y hy => by
        have := hlastmem y hy
        rwa [List.mem_range] at this) x hx
    rw [hLshift] at hin
    have hexp : 2 ^ (k - fri.num_rounds.1) * 2 ^ (fri.num_rounds.1 - 1)
        = 2 ^ (k - 1) := by
      rw [← pow_add]
      congr 1
      omega
    rw [hexp] at hin
    rw [hcwlen, hN]
    have : (2 : Nat) ^ (k - 1) ≤ 2 ^ k := Nat.pow_le_pow_right (by norm_num) (by omega)
    omega
  -- the explicit shape of the prover's stream
  have hrc1 : rc.1 = ⟨[], Msg.root r0 :: rs.map Msg.root⟩ := by
    have h := commitRounds_stream_roots O lift fri.num_rounds.1 fri.domain.omega
      fri.domain.offset codeword sc
    rw [← hrcdef] at h
    rw [h, ← hrsdef]
    have hp1 : sc.past = ([] : List (Msg F D)) := rfl
    have hp2 : sc.future = [Msg.root r0] := rfl
    rw [hp1, hp2]
    simp
  have hcs : (fri.commit O lift codeword ⟨[], []⟩).1
      = ⟨[], (Msg.root r0 :: rs.map Msg.root) ++ [Msg.codeword lastCw]⟩ := by
    rw [hcommit1, hrc1]
    simp [ProofStream.enqueue]
  have hheadD : ((fri.commit O lift codeword ⟨[], []⟩).2.1.headD ([], [])).2
      = codeword.map O.hashElem := by
    rw [hcommitl, List.headD_cons]
  have hS1 : enqueueAuthPairs top codeword
        ((fri.commit O lift codeword ⟨[], []⟩).2.1.headD ([], [])).2
        (fri.commit O lift codeword ⟨[], []⟩).1
      = ⟨[], ((Msg.root r0 :: rs.map Msg.root) ++ [Msg.codeword lastCw])
          ++ [Msg.bundle (authPairs (codeword.map O.hashElem) top codeword)]⟩ := by
    rw [enqueueAuthPairs, hheadD, hcs]
    simp [ProofStream.enqueue]
  -- the round-layer list is non-empty
  obtain ⟨f1, tl, hrc21⟩ : ∃ f1 tl, rc.2.1 = f1 :: tl := by
    cases hcl : rc.2.1 with
    | nil =>
      rw [hcl] at hrclen
      simp at hrclen
      omega
    | cons a t => exact ⟨a, t, rfl⟩
  have hdrop : (fri.commit O lift codeword ⟨[], []⟩).2.1.dropLast
      = (codeword, codeword.map O.hashElem) :: rc.2.1.dropLast := by
    rw [hcommitl, hrc21]
    rfl
  have hQb : proveQueryBundles top fri.domain.length
      ((codeword, codeword.map O.hashElem) :: rc.2.1.dropLast)
      = authPairs (codeword.map O.hashElem)
          (top.map fun x => (x + fri.domain.length / 2) % fri.domain.length) codeword
        :: proveQueryBundles
             (top.map fun x => (x + fri.domain.length / 2) % fri.domain.length)
             (fri.domain.length / 2) rc.2.1.dropLast := rfl
  -- the prover's full output stream
  have hs1 : proveQueryRounds top fri.domain.length
      (fri.commit O lift codeword ⟨[], []⟩).2.1.dropLast
      (enqueueAuthPairs top codeword
        ((fri.commit O lift codeword ⟨[], []⟩).2.1.headD ([], [])).2
        (fri.commit O lift codeword ⟨[], []⟩).1)
    = ⟨[], Msg.root r0 :: (rs.map Msg.root
        ++ (Msg.codeword lastCw
          :: Msg.bundle (authPairs (codeword.map O.hashElem) top codeword)
          :: Msg.bundle (authPairs (codeword.map O.hashElem)
               (top.map fun x => (x + fri.domain.length / 2) % fri.domain.length)
               codeword)
          :: (proveQueryBundles
               (top.map fun x => (x + fri.domain.length / 2) % fri.domain.length)
               (fri.domain.length / 2) rc.2.1.dropLast).map Msg.bundle))⟩ := by
    rw [hdrop, hS1, proveQueryRounds_eq, hQb]
    simp
  rw [hs1] at hprove
  -- the last codeword hashes back to the last queued root
  have hjlt : fri.num_rounds.1 - 1 < rc.2.1.length := by omega
  have hfinal := commitRounds_final O lift fri.num_rounds.1 fri.domain.omega
    fri.domain.offset codeword sc
  rw [← hrcdef, if_neg (show ¬ fri.num_rounds.1 = 0 by omega)] at hfinal
  rw [← hlastdef] at hfinal
  have hdigR := commitRounds_getD_digests O lift fri.num_rounds.1 fri.domain.omega
    fri.domain.offset codeword sc (fri.num_rounds.1 - 1) (by omega)
  rw [← hrcdef] at hdigR
  have hlastroot : O.mtRoot (lastCw.map O.hashElem) = (r0 :: rs).getLastD r0 := by
    have h1 : (r0 :: rs).getLastD r0 = rs.getD (fri.num_rounds.1 - 1) r0 := by
      rw [List.getLastD_cons, getLastD_eq_getD, hrsLen]
    have h2 : rs.getD (fri.num_rounds.1 - 1) r0
        = O.mtRoot ((rc.2.1.getD (fri.num_rounds.1 - 1) ([], [])).2) := by
      rw [hrsdef]
      exact getD_map_of_lt (fun l => O.mtRoot l.2) r0 ([], []) hjlt
    rw [h1, h2, hdigR, ← hfinal]
  -- the last codeword is a low-degree NTT word, so the degree check passes
  have hΩR : IsPrimitiveRoot ((lift fri.domain.omega) ^ 2 ^ fri.num_rounds.1)
      (2 ^ (k - fri.num_rounds.1)) := by
    refine IsPrimitiveRoot.pow (by positivity) hΩF ?_
    rw [← pow_add]
    congr 1
    omega
  have hnR : ((2 ^ (k - fri.num_rounds.1) : Nat) : F) ≠ 0 := by
    push_cast
    exact pow_ne_zero _ h2
  have hVlen : (padPoly (2 ^ (k - fri.num_rounds.1))
      (scalePoly (lift fri.domain.offset ^ 2 ^ fri.num_rounds.1) Q)).length
      = 2 ^ (k - fri.num_rounds.1) := by
    apply padPoly_length
    rw [scalePoly_length]
    exact le_trans hQlen (Nat.pow_le_pow_right (by norm_num) (by omega))
  have hlastcw_ntt : lastCw = nttL (lift fri.domain.omega ^ 2 ^ fri.num_rounds.1)
      (padPoly (2 ^ (k - fri.num_rounds.1))
        (scalePoly (lift fri.domain.offset ^ 2 ^ fri.num_rounds.1) Q)) := by
    apply list_ext_getD (0 : F)
    · rw [hlastlen, nttL_length, hVlen]
    · intro i hi
      rw [hlastlen] at hi
      rw [hlastev i hi, nttL_eval _ _ (show i < _ by rw [hVlen]; exact hi),
        polyEval_padPoly, scalePoly_eval]
  have hinterp : inttL (lift (iterSquare fri.domain.omega fri.num_rounds.1)) lastCw
      = padPoly (2 ^ (k - fri.num_rounds.1))
          (scalePoly (lift fri.domain.offset ^ 2 ^ fri.num_rounds.1) Q) := by
    rw [iterSquare_eq, map_pow, hlastcw_ntt]
    exact inttL_nttL hΩR hnR hVlen
  have hdeg : ¬ polyDegree (inttL (lift (iterSquare fri.domain.omega fri.num_rounds.1))
      lastCw) > (fri.num_rounds.2 : Int) := by
    rw [hinterp, gt_iff_lt, not_lt, polyDegree, padPoly,
      trimPoly_append_replicate_zero, hδ]
    have htr : (trimPoly (scalePoly (lift fri.domain.offset ^ 2 ^ fri.num_rounds.1)
        Q)).length ≤ 2 ^ (k - e - fri.num_rounds.1) :=
      le_trans (trimPoly_length_le _) (by rw [scalePoly_length]; exact hQlen)
    have h1 : (1 : Nat) ≤ 2 ^ (k - e - fri.num_rounds.1) := Nat.one_le_two_pow
    omega
  -- the verifier recovers the prover's index seed
  have hseed : verifierFS O ⟨[Msg.root r0] ++ rs.map Msg.root ++ [Msg.codeword lastCw],
        Msg.bundle (authPairs (codeword.map O.hashElem) top codeword)
          :: Msg.bundle (authPairs (codeword.map O.hashElem)
               (top.map fun x => (x + fri.domain.length / 2) % fri.domain.length)
               codeword)
          :: (proveQueryBundles
               (top.map fun x => (x + fri.domain.length / 2) % fri.domain.length)
               (fri.domain.length / 2) rc.2.1.dropLast).map Msg.bundle⟩
      = proverFS O (fri.commit O lift codeword ⟨[], []⟩).1 := by
    rw [verifierFS, proverFS, hcs]
    congr 1
  have hsomeV : fri.sample_indices O
      (verifierFS O ⟨[Msg.root r0] ++ rs.map Msg.root ++ [Msg.codeword lastCw],
        Msg.bundle (authPairs (codeword.map O.hashElem) top codeword)
          :: Msg.bundle (authPairs (codeword.map O.hashElem)
               (top.map fun x => (x + fri.domain.length / 2) % fri.domain.length)
               codeword)
          :: (proveQueryBundles
               (top.map fun x => (x + fri.domain.length / 2) % fri.domain.length)
               (fri.domain.length / 2) rc.2.1.dropLast).map Msg.bundle⟩)
      = some top := by
    rw [hseed]
    exact hsome0
  -- bounds for the b-indices
  have hb2 : ∀ i ∈ top.map fun x => (x + fri.domain.length / 2) % fri.domain.length,
      i < codeword.length := by
    intro i hi
    rw [List.mem_map] at hi
    obtain ⟨x, _, rfl⟩ := hi
    rw [hcwlen]
    exact Nat.mod_lt _ (by rw [hN]; positivity)
  -- the two authenticated openings against the top root
  have hDA1 := dequeueAndAuthenticate_ok O top codeword r0
    ([Msg.root r0] ++ rs.map Msg.root ++ [Msg.codeword lastCw])
    (Msg.bundle (authPairs (codeword.map O.hashElem)
        (top.map fun x => (x + fri.domain.length / 2) % fri.domain.length) codeword)
      :: (proveQueryBundles
           (top.map fun x => (x + fri.domain.length / 2) % fri.domain.length)
           (fri.domain.length / 2) rc.2.1.dropLast).map Msg.bundle)
    hr0def.symm htopb
  have hDA2 := dequeueAndAuthenticate_ok O
    (top.map fun x => (x + fri.domain.length / 2) % fri.domain.length) codeword r0
    (([Msg.root r0] ++ rs.map Msg.root ++ [Msg.codeword lastCw])
      ++ [Msg.bundle (authPairs (codeword.map O.hashElem) top codeword)])
    ((proveQueryBundles
        (top.map fun x => (x + fri.domain.length / 2) % fri.domain.length)
        (fri.domain.length / 2) rc.2.1.dropLast).map Msg.bundle)
    hr0def.symm hb2
  -- the remaining layers satisfy the query-loop invariants
  have hdig' : ∀ j, j < rc.2.1.dropLast.length →
      (rc.2.1.dropLast.getD j ([], [])).2
        = (rc.2.1.dropLast.getD j ([], [])).1.map O.hashElem := by
    intro j hj
    rw [List.length_dropLast] at hj
    rw [getD_dropLast _ _ hj]
    have h := commitRounds_getD_digests O lift fri.num_rounds.1 fri.domain.omega
      fri.domain.offset codeword sc j (by omega)
    rw [← hrcdef] at h
    exact h
  have hroot' : ∀ j, j < rc.2.1.dropLast.length →
      (r0 :: rs).getD (1 + j) (O.mtRoot [])
        = O.mtRoot (rc.2.1.dropLast.getD j ([], [])).2 := by
    intro j hj
    rw [List.length_dropLast] at hj
    have h1j : 1 + j = j + 1 := by omega
    rw [h1j, List.getD_cons_succ, getD_dropLast _ _ hj, hrsdef]
    have hjl : j < rc.2.1.length := by omega
    exact getD_map_of_lt (fun l => O.mtRoot l.2) (O.mtRoot []) ([], []) hjl
  have hlen' : ∀ j, j < rc.2.1.dropLast.length →
      (rc.2.1.dropLast.getD j ([], [])).1.length = fri.domain.length / 2 / 2 ^ j := by
    intro j hj
    rw [List.length_dropLast] at hj
    rw [getD_dropLast _ _ hj]
    have h := commitRounds_getD_length O lift fri.num_rounds.1 fri.domain.omega
      fri.domain.offset codeword sc j (by omega)
    rw [← hrcdef] at h
    rw [h, hcwlen, pow_succ', Nat.div_div_eq_div_mul]
  have hpos' : ∀ j, j < rc.2.1.dropLast.length →
      0 < fri.domain.length / 2 / 2 ^ j := by
    intro j hj
    rw [List.length_dropLast] at hj
    rw [Nat.div_div_eq_div_mul, ← pow_succ', hN,
      Nat.pow_div (by omega) (by norm_num)]
    positivity
  obtain ⟨R', hR'⟩ : ∃ n, fri.num_rounds.1 = n + 1 := ⟨fri.num_rounds.1 - 1, by omega⟩
  have hdl : rc.2.1.dropLast.length = R' := by
    rw [List.length_dropLast, hrclen, hR']
    omega
  -- the verifier's run on the prover's stream
  have hver : fri.verify O lift
      ⟨[], Msg.root r0 :: (rs.map Msg.root
        ++ (Msg.codeword lastCw
          :: Msg.bundle (authPairs (codeword.map O.hashElem) top codeword)
          :: Msg.bundle (authPairs (codeword.map O.hashElem)
               (top.map fun x => (x + fri.domain.length / 2) % fri.domain.length)
               codeword)
          :: (proveQueryBundles
               (top.map fun x => (x + fri.domain.length / 2) % fri.domain.length)
               (fri.domain.length / 2) rc.2.1.dropLast).map Msg.bundle))⟩
      = .ok (⟨[Msg.root r0] ++ rs.map Msg.root ++ [Msg.codeword lastCw]
               ++ [Msg.bundle (authPairs (codeword.map O.hashElem) top codeword)]
               ++ [Msg.bundle (authPairs (codeword.map O.hashElem)
                    (top.map fun x => (x + fri.domain.length / 2) % fri.domain.length)
                    codeword)]
               ++ (proveQueryBundles
                    (top.map fun x => (x + fri.domain.length / 2) % fri.domain.length)
                    (fri.domain.length / 2) rc.2.1.dropLast).map Msg.bundle, []⟩,
             (List.range fri.colinearity_checks_count).flatMap fun j =>
               [(top.getD j 0, (top.map fun i => codeword.getD i 0).getD j 0),
                ((top.map fun x =>
                    (x + fri.domain.length / 2) % fri.domain.length).getD j 0,
                 ((top.map fun x =>
                     (x + fri.domain.length / 2) % fri.domain.length).map
                   fun i => codeword.getD i 0).getD j 0)]) := by
    rw [Fri.verify, dequeueRoot_cons]
    dsimp only
    simp only [List.nil_append]
    have hex := extractRoots_ok O rs [Msg.root r0]
      (Msg.codeword lastCw
        :: Msg.bundle (authPairs (codeword.map O.hashElem) top codeword)
        :: Msg.bundle (authPairs (codeword.map O.hashElem)
             (top.map fun x => (x + fri.domain.length / 2) % fri.domain.length)
             codeword)
        :: (proveQueryBundles
             (top.map fun x => (x + fri.domain.length / 2) % fri.domain.length)
             (fri.domain.length / 2) rc.2.1.dropLast).map Msg.bundle)
    rw [hrsLen] at hex
    rw [hex]
    dsimp only
    rw [dequeueCodeword_cons]
    dsimp only
    rw [if_neg (not_not_intro hlastroot)]
    rw [if_neg hdeg, hsomeV]
    dsimp only
    rw [List.getD_cons_zero, hDA1]
    dsimp only
    rw [hR', verifyQueryRounds]
    dsimp only
    rw [List.getD_cons_zero, hDA2]
    dsimp only
    rw [if_pos rfl]
    simp only [List.nil_append]
    rw [← hdl]
    exact verifyQueryRounds_closed O lift fri _ _ rc.2.1.dropLast 1 _ _ _
      (fri.domain.length / 2) _ _ le_rfl hdig' hroot' hlen' hpos'
  refine ⟨_, top, _, _, hprove, hver, ?_, ?_⟩
  · rw [length_flatMap_pairs, List.length_range]
  · intro pr hpr
    rw [List.mem_flatMap] at hpr
    obtain ⟨j, hjr, hpr2⟩ := hpr
    rw [List.mem_range] at hjr
    have hjtop : j < top.length := by rw [htoplen]; exact hjr
    have haval : (top.map fun i => codeword.getD i 0).getD j 0
        = codeword.getD (top.getD j 0) 0 := getD_map_of_lt _ 0 0 hjtop
    have hj2 : j < (top.map fun x =>
        (x + fri.domain.length / 2) % fri.domain.length).length := by
      rw [List.length_map]
      exact hjtop
    have hbval : ((top.map fun x => (x + fri.domain.length / 2) % fri.domain.length).map
          fun i => codeword.getD i 0).getD j 0
        = codeword.getD ((top.map fun x =>
            (x + fri.domain.length / 2) % fri.domain.length).getD j 0) 0 :=
      getD_map_of_lt _ 0 0 hj2
    have hbidx : (top.map fun x =>
          (x + fri.domain.length / 2) % fri.domain.length).getD j 0
        = (top.getD j 0 + fri.domain.length / 2) % fri.domain.length :=
      getD_map_of_lt _ 0 0 hjtop
    have htopj : top.getD j 0 < 2 ^ k := by
      have hmem : top.getD j 0 ∈ top := by
        rw [List.getD_eq_getElem _ _ hjtop]
        exact List.getElem_mem _
      have h := htopb _ hmem
      rwa [hcwlen, hN] at h
    have hbj : (top.map fun x =>
        (x + fri.domain.length / 2) % fri.domain.length).getD j 0 < 2 ^ k := by
      rw [hbidx]
      have h : (top.getD j 0 + fri.domain.length / 2) % fri.domain.length
          < fri.domain.length := Nat.mod_lt _ (by rw [hN]; positivity)
      exact lt_of_lt_of_eq h hN
    have hval : ∀ idx : Nat, idx < 2 ^ k →
        codeword.getD idx 0 = polyEval p (lift (fri.domain.b_domain_value idx)) := by
      intro idx hidx
      rw [hcw idx hidx]
      congr 1
      rw [FriDomain.b_domain_value, map_mul, map_pow]
      exact mul_comm _ _
    simp only [List.mem_cons, List.not_mem_nil, or_false] at hpr2
    rcases hpr2 with rfl | rfl
    · show (top.map fun i => codeword.getD i 0).getD j 0
        = polyEval p (lift (fri.domain.b_domain_value (top.getD j 0)))
      rw [haval]
      exact hval _ htopj
    · show ((top.map fun x => (x + fri.domain.length / 2) % fri.domain.length).map
          fun i => codeword.getD i 0).getD j 0
        = polyEval p (lift (fri.domain.b_domain_value ((top.map fun x =>
            (x + fri.domain.length / 2) % fri.domain.length).getD j 0)))
      rw [hbval]
      exact hval _ hbj

/-- Completeness at a concrete instance over `ZMod 5`: domain `1·⟨2⟩` of size
`4` (`k = 2`), expansion factor `2` (`e = 1`), one colinearity check, and the
polynomial `1 + X`. -/
theorem fri_completeness_witness :
    ∃ (s1 : ProofStream (ZMod 5) Nat) (top : List Nat)
      (s2 : ProofStream (ZMod 5) Nat) (evals : List (Nat × ZMod 5)),
      (Fri.mk 2 1 (FriDomain.mk (1 : ZMod 5) 2 4)).prove testOracle
          (RingHom.id (ZMod 5))
          ((Fri.mk 2 1 (FriDomain.mk (1 : ZMod 5) 2 4)).domain.x_evaluate
            (RingHom.id (ZMod 5)) [1, 1]) ⟨[], []⟩
        = .ok (s1, top)
      ∧ (Fri.mk 2 1 (FriDomain.mk (1 : ZMod 5) 2 4)).verify testOracle
          (RingHom.id (ZMod 5)) s1 = .ok (s2, evals)
      ∧ evals.length = 2 * 1
      ∧ ∀ pr ∈ evals, pr.2 = polyEval [1, 1]
          ((RingHom.id (ZMod 5))
            ((Fri.mk 2 1 (FriDomain.mk (1 : ZMod 5) 2 4)).domain.b_domain_value
              pr.1)) :=
  fri_completeness testOracle (RingHom.id (ZMod 5))
    (Fri.mk 2 1 (FriDomain.mk (1 : ZMod 5) 2 4)) testOracle_sampleIndexNPT_lt 2 1
    (by decide) (by decide) (by decide) (by decide) (by decide) (by decide)
    (by decide)
    (by
      apply IsPrimitiveRoot.mk_of_lt
      · decide
      · decide
      · intro l h0 hl
        interval_cases l <;> decide)
    (by decide) [1, 1] (by decide)

end CompletenessInfra
